import Mathlib

/-!
Shallow embedding of a Go HTTP forward-proxy: the HTTP/1.1 request
parser and serializer, the block-list filter, the LRU response cache,
the error-response writers and the upstream response relay, together
with theorems settling the specification claims about them.

Go strings and byte streams are modelled as lists of byte values
(`List Nat`); Go `int`/`int64` as `Int`.  All definitions are
executable and are translated from the repository's source files.
-/

/-- Go strings and byte slices, modelled as lists of byte values. -/
abbrev GoStr : Type := List Nat

/-- Builds a `GoStr` from a Lean string literal (ASCII contents). -/
def gs (s : String) : GoStr := s.data.map Char.toNat

/-- ASCII lower-casing of one byte, the byte restriction of Go `strings.ToLower`. -/
def asciiLower (c : Nat) : Nat := if 65 ≤ c ∧ c ≤ 90 then c + 32 else c

/-- ASCII upper-casing of one byte, the byte restriction of Go `strings.ToUpper`. -/
def asciiUpper (c : Nat) : Nat := if 97 ≤ c ∧ c ≤ 122 then c - 32 else c

/-- Go `strings.ToLower` on ASCII data. -/
def toLowerStr (s : GoStr) : GoStr := s.map asciiLower

/-- Go `strings.ToUpper` on ASCII data. -/
def toUpperStr (s : GoStr) : GoStr := s.map asciiUpper

/-- The ASCII white-space bytes trimmed by Go `strings.TrimSpace`. -/
def isSpaceB (c : Nat) : Bool := c == 32 || c == 9 || c == 10 || c == 11 || c == 12 || c == 13

/-- Drops the longest suffix of bytes satisfying `p` (Go `strings.TrimRight` family). -/
def trimRightB (p : Nat → Bool) (s : GoStr) : GoStr := (s.reverse.dropWhile p).reverse

/-- Go `strings.TrimSpace` on ASCII data. -/
def trimSpace (s : GoStr) : GoStr := trimRightB isSpaceB (s.dropWhile isSpaceB)

/-- The cut-set predicate of `strings.TrimRight(line, "\r\n")`. -/
def isCRLFB (c : Nat) : Bool := c == 13 || c == 10

/-- Go `strings.TrimRight(s, "\r\n")`. -/
def trimRightRN (s : GoStr) : GoStr := trimRightB isCRLFB s

/-- Go `strings.HasPrefix s p`: does `s` start with `p`? -/
def isPre : GoStr → GoStr → Bool
  | [], _ => true
  | _ :: _, [] => false
  | a :: p, b :: s => a == b && isPre p s

/-- Go `strings.HasSuffix s suf`: does `s` end with `suf`? -/
def isSuf (suf s : GoStr) : Bool := isPre suf.reverse s.reverse

/-- Splits a byte string at the first occurrence of byte `c`
(none when `c` is absent); mirrors Go `strings.Index` plus slicing. -/
def breakAtChar (c : Nat) : GoStr → Option (GoStr × GoStr)
  | [] => none
  | x :: xs =>
    if x = c then some ([], xs)
    else (breakAtChar c xs).map (fun p => (x :: p.1, p.2))

/-- Splits at the last occurrence of byte `c` (Go `strings.LastIndex` plus slicing). -/
def breakAtLastChar (c : Nat) (s : GoStr) : Option (GoStr × GoStr) :=
  match breakAtChar c s.reverse with
  | none => none
  | some (a, b) => some (b.reverse, a.reverse)

/-- Go `strings.SplitN(s, sep, n)` for a one-byte separator and `n ≥ 1`. -/
def splitNChar (c : Nat) : Nat → GoStr → List GoStr
  | 0, _ => []
  | 1, s => [s]
  | n + 2, s =>
    match breakAtChar c s with
    | none => [s]
    | some (a, b) => a :: splitNChar c (n + 1) b

/-- Go `strings.Split(s, sep)` for a one-byte separator (unbounded). -/
def splitCh (c : Nat) : GoStr → List GoStr
  | [] => [[]]
  | x :: xs =>
    match splitCh c xs with
    | [] => if x = c then [[], []] else [[x]]
    | h :: t => if x = c then [] :: h :: t else (x :: h) :: t

/-- Go `strings.Join(parts, sep)` for a one-byte separator. -/
def joinCh (c : Nat) : List GoStr → GoStr
  | [] => []
  | [h] => h
  | h :: g :: t => h ++ c :: joinCh c (g :: t)

/-- Is the byte an ASCII decimal digit? -/
def isDigitB (c : Nat) : Bool := 48 ≤ c && c ≤ 57

/-- Decimal value of a non-empty all-digit byte string, else `none`. -/
def digitsVal (s : GoStr) : Option Nat :=
  if s = [] then none
  else if s.all isDigitB then some (s.foldl (fun a c => a * 10 + (c - 48)) 0)
  else none

/-- Go `strconv.Atoi`: optional single sign, digits, 64-bit range check. -/
def atoi (s : GoStr) : Option Int :=
  match s with
  | 43 :: rest =>
    (digitsVal rest).bind fun v =>
      if v ≤ 9223372036854775807 then some (v : Int) else none
  | 45 :: rest =>
    (digitsVal rest).bind fun v =>
      if v ≤ 9223372036854775808 then some (-(v : Int)) else none
  | _ =>
    (digitsVal s).bind fun v =>
      if v ≤ 9223372036854775807 then some (v : Int) else none

/-- Decimal rendering of a natural number (Go `fmt` `%d` on non-negatives). -/
def itoaNat (n : Nat) : GoStr := (Nat.toDigits 10 n).map Char.toNat

/-- Decimal rendering of a Go integer (Go `fmt` `%d`). -/
def itoaInt (i : Int) : GoStr :=
  if i < 0 then 45 :: itoaNat (-i).toNat else itoaNat i.toNat

/-- `bufio.Reader.ReadString('\n')`: the first line including its
terminating newline byte, plus the remaining stream; `none` models the
error path taken when no newline arrives before end of stream. -/
def readLine : GoStr → Option (GoStr × GoStr)
  | [] => none
  | x :: xs =>
    if x = 10 then some ([10], xs)
    else (readLine xs).map (fun p => (x :: p.1, p.2))

/-! ## URL parsing (the slice of `net/url.Parse` the proxy exercises)

The parser and serializer call `url.Parse` only on targets that start
with `http://` or `https://`.  The model covers that slice: rejection
of ASCII control bytes, fragment and query splitting, percent-decoding
of the path, user-info stripping, bracketed hosts, and the digits-only
validation of an explicit port. -/

/-- Result of `url.Parse` restricted to the fields the proxy reads:
`Hostname()`, `Port()`, `Path` (percent-decoded) and `RawQuery`. -/
structure GoURL where
  hostname : GoStr
  portStr : GoStr
  path : GoStr
  rawQuery : GoStr
deriving DecidableEq

/-- ASCII control bytes, which `url.Parse` rejects anywhere in a URL. -/
def isCtlByte (c : Nat) : Bool := c < 32 || c == 127

/-- Hex digit value for percent-escapes. -/
def hexVal (c : Nat) : Option Nat :=
  if 48 ≤ c ∧ c ≤ 57 then some (c - 48)
  else if 65 ≤ c ∧ c ≤ 70 then some (c - 55)
  else if 97 ≤ c ∧ c ≤ 102 then some (c - 87)
  else none

/-- Percent-decoding as applied by `url.Parse` to the path component;
fails on a malformed escape, leaves every other byte unchanged. -/
def percentDecode : GoStr → Option GoStr
  | [] => some []
  | 37 :: h :: l :: rest =>
    match hexVal h, hexVal l with
    | some a, some b => (percentDecode rest).map (fun r => (a * 16 + b) :: r)
    | _, _ => none
  | 37 :: _ => none
  | c :: rest => (percentDecode rest).map (fun r => c :: r)

/-- Is the byte one of the authority delimiters `/`, `?`, `#`? -/
def isAuthorityEnd (c : Nat) : Bool := c == 47 || c == 63 || c == 35

/-- Splits an authority's host-port section into hostname and port
string, mirroring `url.Parse` host validation plus `Hostname()` and
`Port()`: a bracketed host keeps the bracket interior, an explicit
port must be all digits. -/
def splitHostPort (hostport : GoStr) : Option (GoStr × GoStr) :=
  match hostport with
  | 91 :: rest =>
    match breakAtChar 93 rest with
    | none => none
    | some (inside, after) =>
      match after with
      | [] => some (inside, [])
      | 58 :: p => if p.all isDigitB then some (inside, p) else none
      | _ => none
  | _ =>
    match breakAtLastChar 58 hostport with
    | none => some (hostport, [])
    | some (h, p) => if p.all isDigitB then some (h, p) else none

/-- The slice of `url.Parse` used on absolute-form proxy targets. -/
def urlParse (s : GoStr) : Option GoURL :=
  if s.any isCtlByte then none
  else
    let rest := if isPre (gs ("http://")) s then s.drop 7 else s.drop 8
    let authority := rest.takeWhile (fun c => !isAuthorityEnd c)
    let after := rest.dropWhile (fun c => !isAuthorityEnd c)
    let pq := after.takeWhile (fun c => !(c == 35))
    let rawPath := pq.takeWhile (fun c => !(c == 63))
    let rawQuery := (pq.dropWhile (fun c => !(c == 63))).drop 1
    let hostport :=
      match breakAtLastChar 64 authority with
      | none => authority
      | some (_, h) => h
    match splitHostPort hostport with
    | none => none
    | some (h, p) =>
      match percentDecode rawPath with
      | none => none
      | some path => some ⟨h, p, path, rawQuery⟩

/-! ## The HTTP request parser and serializer (`parser.go`) -/

/-- Header maps: lowercased name to value, in first-insertion order
(a concrete iteration order refining Go's unordered map). -/
abbrev Headers : Type := List (GoStr × GoStr)

/-- Assoc lookup, modelling a Go map read. -/
def assocFind {β : Type} : List (GoStr × β) → GoStr → Option β
  | [], _ => none
  | (k', v) :: t, k => if k' = k then some v else assocFind t k

/-- Assoc update, modelling a Go map write (replace or append). -/
def assocUpdate {β : Type} : List (GoStr × β) → GoStr → β → List (GoStr × β)
  | [], k, v => [(k, v)]
  | (k', v') :: t, k, v =>
    if k' = k then (k, v) :: t else (k', v') :: assocUpdate t k v

/-- Assoc removal of the first binding of `k`, modelling Go `delete`. -/
def assocErase {β : Type} : List (GoStr × β) → GoStr → List (GoStr × β)
  | [], _ => []
  | (k', v') :: t, k => if k' = k then t else (k', v') :: assocErase t k

/-- A parsed HTTP request (`HTTPRequest` in `parser.go`). -/
structure HTTPRequest where
  method : GoStr
  requestTarget : GoStr
  version : GoStr
  headers : Headers
  body : GoStr
  host : GoStr
  port : Int
  isConnect : Bool
deriving DecidableEq

/-- The header-reading loop of `ParseHTTPRequest`: lines until a blank
line; a line without `:` is skipped; names are lowercased and trimmed,
values trimmed, duplicates last-write-wins.  Fuel bounds the recursion;
`parseHTTPRequest` passes enough for any stream. -/
def parseHeaderLines : Nat → GoStr → Headers → Option (Headers × GoStr)
  | 0, _, _ => none
  | n + 1, s, acc =>
    match readLine s with
    | none => none
    | some (line, rest) =>
      let l := trimRightRN line
      if l = [] then some (acc, rest)
      else
        match breakAtChar 58 l with
        | none => parseHeaderLines n rest acc
        | some (k0, v0) =>
          parseHeaderLines n rest
            (assocUpdate acc (trimSpace (toLowerStr k0)) (trimSpace v0))

/-- `extractHostAndPort` of `parser.go`: absolute-form URI first, else
the `host` header (first `:` splits host and port, default port 80). -/
def extractHostAndPort (target : GoStr) (hs : Headers) : Option (GoStr × Int) :=
  if isPre (gs ("http://")) target || isPre (gs ("https://")) target then
    match urlParse target with
    | none => none
    | some u =>
      if u.portStr = [] then
        some (u.hostname, if isPre (gs ("https://")) target then 443 else 80)
      else
        match atoi u.portStr with
        | none => none
        | some p => some (u.hostname, p)
  else
    match assocFind hs (gs ("host")) with
    | none => none
    | some hh =>
      match splitNChar 58 2 hh with
      | [h] => some (h, 80)
      | [h, pstr] =>
        match atoi pstr with
        | none => none
        | some p => some (h, p)
      | _ => none

/-- `readBody` of `parser.go`: with a `content-length` header the value
must be a non-negative integer at most 10 MiB and exactly that many
bytes are consumed; without it the body is empty.  Returns the body
and the unconsumed remainder of the stream. -/
def readBody (hs : Headers) (s : GoStr) : Option (GoStr × GoStr) :=
  match assocFind hs (gs ("content-length")) with
  | none => some ([], s)
  | some cl =>
    match atoi cl with
    | none => none
    | some n =>
      if n < 0 then none
      else if n > 10485760 then none
      else if s.length < n.toNat then none
      else some (s.take n.toNat, s.drop n.toNat)

/-- `ParseHTTPRequest` of `parser.go` over a byte stream. -/
def parseHTTPRequest (s : GoStr) : Option HTTPRequest :=
  match readLine s with
  | none => none
  | some (rl0, s1) =>
    let rl := trimRightRN rl0
    match splitNChar 32 3 rl with
    | [m0, target, version] =>
      let method := toUpperStr m0
      if method = gs ("CONNECT") then
        match splitNChar 58 2 target with
        | [h, pstr] =>
          match atoi pstr with
          | none => none
          | some p =>
            some ⟨method, target, version, [], [], h, p, true⟩
        | _ => none
      else
        match parseHeaderLines (s1.length + 1) s1 [] with
        | none => none
        | some (hs, s2) =>
          match extractHostAndPort target hs with
          | none => none
          | some (h, p) =>
            match readBody hs s2 with
            | none => none
            | some (b, _) =>
              some ⟨method, target, version, hs, b, h, p, false⟩
    | _ => none

/-- `capitalizeHeader` of `parser.go`: split on `-`, upper-case each
segment's first byte, lower-case the rest, re-join. -/
def capPart : GoStr → GoStr
  | [] => []
  | c :: cs => asciiUpper c :: cs.map asciiLower

/-- `capitalizeHeader` of `parser.go`. -/
def capitalizeHeader (k : GoStr) : GoStr := joinCh 45 ((splitCh 45 k).map capPart)

/-- Header block emission of `SerializeRequest`, one
`Capitalized-Name: value\r\n` line per header in map order. -/
def serializeHeaders : Headers → GoStr
  | [] => []
  | (k, v) :: t =>
    capitalizeHeader k ++ [58, 32] ++ v ++ [13, 10] ++ serializeHeaders t

/-- The origin-form rewrite of `SerializeRequest`: for an absolute-form
target, `path` (defaulting to `/`) plus `?RawQuery` when non-empty;
on a `url.Parse` failure the target is kept as-is. -/
def pathWithQuery (t : GoStr) : GoStr :=
  match urlParse t with
  | some u =>
    let p := if u.path = [] then gs ("/") else u.path
    if u.rawQuery ≠ [] then p ++ 63 :: u.rawQuery else p
  | none => t

/-- `SerializeRequest` of `parser.go`. -/
def serializeRequest (r : HTTPRequest) : GoStr :=
  (if isPre (gs ("http://")) r.requestTarget
      || isPre (gs ("https://")) r.requestTarget then
    r.method ++ [32] ++ pathWithQuery r.requestTarget ++ [32] ++ r.version ++ [13, 10]
  else
    r.method ++ [32] ++ r.requestTarget ++ [32] ++ r.version ++ [13, 10])
  ++ serializeHeaders r.headers ++ [13, 10] ++ r.body

/-! ## The block-list filter (`filter.go`)

The two Go map-sets become lists; iteration order over the domain set
in the wildcard scan is the list order, one concrete refinement of
Go's unspecified map order. -/

/-- `Filter` of `filter.go` (named `BlockFilter` here to avoid the
Mathlib `Filter` type): blocked domain rules and blocked IP rules. -/
structure BlockFilter where
  blockedDomains : List GoStr
  blockedIPs : List GoStr
deriving DecidableEq

/-- The wildcard-rule condition inside the scan of `IsBlocked`: the
rule starts with `*.` and, with `suffix` its remainder, the canonical
host ends with `"." + suffix` or equals `suffix`. -/
def WildMatch (d host : GoStr) : Prop :=
  isPre (gs ("*.")) d ∧ (isSuf (46 :: d.drop 2) host || host = d.drop 2)

instance (d host : GoStr) : Decidable (WildMatch d host) := by
  unfold WildMatch
  infer_instance

/-- The wildcard scan of `IsBlocked`: first domain rule that starts
with `*.` whose suffix matches the canonical host. -/
def findWildcard (host : GoStr) : List GoStr → Option GoStr
  | [] => none
  | d :: t =>
    if WildMatch d host
    then some d
    else findWildcard host t

/-- `IsBlocked` of `filter.go`: canonicalize, exact domain match, exact
IP match, then the wildcard suffix scan. -/
def isBlocked (f : BlockFilter) (host0 : GoStr) : Bool × GoStr :=
  let host := toLowerStr (trimSpace host0)
  if host ∈ f.blockedDomains then (true, host)
  else if host ∈ f.blockedIPs then (true, host)
  else
    match findWildcard host f.blockedDomains with
    | some d => (true, d)
    | none => (false, [])

/-! ## The LRU response cache (`cache.go`)

The entries map becomes an assoc list (insertion order), the access
order list is kept verbatim.  `time.Now()` is modelled as the constant
0 since no claim depends on timestamps.  The `Put` eviction loop is
not structurally terminating in the source — it can in fact spin
forever — so it takes explicit fuel and `cachePut` returns `none`
exactly when the loop makes no further progress. -/

/-- `CacheEntry` of `cache.go`. -/
structure CacheEntry where
  headers : Headers
  statusCode : Int
  body : GoStr
  lastAccessed : Nat
  size : Int
deriving DecidableEq

/-- `Cache` of `cache.go` (mutex dropped; single-threaded model). -/
structure Cache where
  entries : List (GoStr × CacheEntry)
  accessOrder : List GoStr
  maxEntries : Int
  maxSize : Int
  currentSize : Int
deriving DecidableEq

/-- `NewCache`: empty cache with a 100 MiB byte bound. -/
def newCache (me : Int) : Cache := ⟨[], [], me, 104857600, 0⟩

/-- The size computation at the top of `Put`:
`len(Body) + Σ (len(k) + len(v))` over the headers. -/
def entrySizeOf (e : CacheEntry) : Int :=
  (e.body.length : Int) +
    (e.headers.map (fun kv => (kv.1.length : Int) + kv.2.length)).sum

/-- `removeFromOrder`: drop the first occurrence of the key. -/
def removeFirstStr (k : GoStr) : List GoStr → List GoStr
  | [] => []
  | x :: t => if x = k then t else x :: removeFirstStr k t

/-- `Get`: on a hit, touch the entry and move the key to the back of
the access order; returns the new state and the found flag. -/
def cacheGet (c : Cache) (k : GoStr) : Cache × Bool :=
  match assocFind c.entries k with
  | none => (c, false)
  | some e =>
    ({ c with
        entries := assocUpdate c.entries k { e with lastAccessed := 0 },
        accessOrder := removeFirstStr k c.accessOrder ++ [k] }, true)

/-- `evictLRU`: pop the front key of the access order and, when it is
still in the map, remove it and subtract its size; a no-op when the
access order is empty. -/
def evictLRU (c : Cache) : Cache :=
  match c.accessOrder with
  | [] => c
  | k :: rest =>
    match assocFind c.entries k with
    | none => { c with accessOrder := rest }
    | some e =>
      { c with
          accessOrder := rest,
          entries := assocErase c.entries k,
          currentSize := c.currentSize - e.size }

/-- The `for … evictLRU()` loop of `Put`, with fuel.  The guard is the
source's: count at capacity or size overflow, and a non-empty map. -/
def evictLoop : Nat → Int → Cache → Option Cache
  | 0, _, _ => none
  | n + 1, sz, c =>
    if ((c.entries.length : Int) ≥ c.maxEntries ∨ c.currentSize + sz > c.maxSize)
        ∧ c.entries.length > 0
    then evictLoop n sz (evictLRU c)
    else some c

/-- `Put` of `cache.go`.  Fuel `entries.length + 1` is enough for every
terminating run of the source loop (each productive iteration evicts
one entry), so `none` marks exactly the runs on which the source spins
forever. -/
def cachePut (c : Cache) (k : GoStr) (e0 : CacheEntry) : Option Cache :=
  let sz := entrySizeOf e0
  let e := { e0 with size := sz, lastAccessed := 0 }
  let c1 :=
    match assocFind c.entries k with
    | none => c
    | some old =>
      { c with
          currentSize := c.currentSize - old.size,
          accessOrder := removeFirstStr k c.accessOrder }
  match evictLoop (c1.entries.length + 1) sz c1 with
  | none => none
  | some c2 =>
    some { c2 with
        entries := assocUpdate c2.entries k e,
        currentSize := c2.currentSize + sz,
        accessOrder := c2.accessOrder ++ [k] }

/-- `Clear` of `cache.go`. -/
def cacheClear (c : Cache) : Cache :=
  { c with entries := [], accessOrder := [], currentSize := 0 }

/-- `MakeCacheKey` of `cache.go`. -/
def makeCacheKey (method target : GoStr) : GoStr :=
  if method ≠ gs ("GET") then [] else method ++ 58 :: target

/-- One cache operation of the public interface. -/
inductive CacheOp where
  | get (k : GoStr)
  | put (k : GoStr) (e : CacheEntry)
  | clear
deriving DecidableEq

/-- Applies one cache operation; `none` when a `put` diverges. -/
def applyCacheOp (c : Cache) : CacheOp → Option Cache
  | .get k => some (cacheGet c k).1
  | .put k e => cachePut c k e
  | .clear => some (cacheClear c)

/-- Runs a sequence of cache operations. -/
def runCacheOps (c : Cache) : List CacheOp → Option Cache
  | [] => some c
  | op :: t =>
    match applyCacheOp c op with
    | none => none
    | some c' => runCacheOps c' t

/-! ## Error responses and the response relay (`server.go`, `forwarder.go`) -/

/-- `sendErrorResponse` of `server.go`: the exact bytes written to the
client for an error status. -/
def sendErrorResponse (code : Int) (msg : GoStr) : GoStr :=
  let body := itoaInt code ++ [32] ++ msg
  gs ("HTTP/1.1 ") ++ itoaInt code ++ [32] ++ msg ++ [13, 10]
    ++ gs ("Content-Type: text/plain") ++ [13, 10]
    ++ gs ("Content-Length: ") ++ itoaInt (body.length) ++ [13, 10]
    ++ gs ("Connection: close") ++ [13, 10]
    ++ [13, 10]
    ++ body

/-- The bytes `HandleCONNECT` of `forwarder.go` writes to the client
when the upstream dial fails. -/
def connectDialFailResponse : GoStr := gs ("HTTP/1.1 502 Bad Gateway\r\n\r\n")

/-- Modelled from the spec (§4.7, §6): the error-response wire format
the specification prescribes — status line, `Content-Type: text/plain`,
`Content-Length` of the body, `Connection: close`, blank line, then a
body of `"<code> <reason>"`.  Used to compare the source's writers
against the specified format. -/
def specErrorResponse (code : Int) (reason : GoStr) : GoStr :=
  let body := itoaInt code ++ [32] ++ reason
  gs ("HTTP/1.1 ") ++ itoaInt code ++ [32] ++ reason ++ [13, 10]
    ++ gs ("Content-Type: text/plain") ++ [13, 10]
    ++ gs ("Content-Length: ") ++ itoaInt (body.length) ++ [13, 10]
    ++ gs ("Connection: close") ++ [13, 10]
    ++ [13, 10]
    ++ body

/-- An upstream connection: the bytes it will deliver, and whether the
stream ends in an I/O error (`true`) or a clean EOF (`false`). -/
structure UpStream where
  data : GoStr
  errAtEnd : Bool
deriving DecidableEq

/-- The header-relay loop of `forwardResponse`: forwards each header
line verbatim until a CRLF-only or LF-only line; on a read failure the
partially forwarded bytes are kept but the loop reports failure
(second component `none`). -/
def relayHeaderLines : Nat → GoStr → GoStr → GoStr × Option GoStr
  | 0, _, w => (w, none)
  | n + 1, s, w =>
    match readLine s with
    | none => (w, none)
    | some (line, rest) =>
      if line = [13, 10] ∨ line = [10] then (w ++ line, some rest)
      else relayHeaderLines n rest (w ++ line)

/-- `forwardResponse` of `forwarder.go` against a modelled upstream:
returns the parsed status code, the bytes written to the client, and
whether an error is reported.  The status line and header lines are
relayed verbatim; the remainder is streamed until EOF; an upstream
error surfaces after all delivered bytes have been relayed. -/
def forwardResponse (up : UpStream) : Int × GoStr × Bool :=
  match readLine up.data with
  | none => (0, [], true)
  | some (statusLine, rest) =>
    let status : Int :=
      match splitNChar 32 3 (trimSpace statusLine) with
      | _ :: codeStr :: _ =>
        match atoi codeStr with
        | some c => c
        | none => 0
      | _ => 0
    match relayHeaderLines (rest.length + 1) rest statusLine with
    | (w, none) => (status, w, true)
    | (w, some body) => (status, w ++ body, up.errAtEnd)

/-- The forwarding tail of `handleConnection` in `server.go`: the total
bytes the client sees — the relayed response, followed by a full 502
error response whenever `ForwardRequest` reported an error. -/
def clientBytesAfterForward (up : UpStream) : GoStr :=
  match forwardResponse up with
  | (_, w, errored) =>
    if errored then w ++ sendErrorResponse 502 (gs ("Bad Gateway")) else w

/-- One proxy-level outcome of `handleConnection` after a successful
parse, as far as the decision structure is concerned. -/
inductive ProxyAction where
  | auth407
  | connect501
  | blocked403
  | connectTunnel
  | cacheHit
  | forward
deriving DecidableEq

/-- The decision sequence of `handleConnection` in `server.go` after a
successful parse: authentication first (a Go map read of an absent key
yields the empty string), then the CONNECT branch, then the block-list
check, then the cache lookup, then forwarding. -/
def handleParsed (authToken : GoStr) (enableTunnel : Bool) (flt : BlockFilter)
    (cache : Option Cache) (req : HTTPRequest) : ProxyAction :=
  if authToken ≠ [] ∧ (assocFind req.headers (gs ("proxy-authorization"))).getD [] ≠ authToken then
    .auth407
  else if req.isConnect then
    if !enableTunnel then .connect501
    else if (isBlocked flt req.host).1 then .blocked403
    else .connectTunnel
  else if (isBlocked flt req.host).1 then .blocked403
  else
    let key := makeCacheKey req.method req.requestTarget
    match cache with
    | some c => if key ≠ [] ∧ (assocFind c.entries key).isSome then .cacheHit else .forward
    | none => .forward

/-! ## Helper lemmas on the byte-string primitives -/

/-- Well-formedness of a parsed header name: already lowercased and
trimmed, and free of `:` and newline bytes. -/
def KeyWF (k : GoStr) : Prop := toLowerStr k = k ∧ trimSpace k = k ∧ 58 ∉ k ∧ 10 ∉ k

/-- Well-formedness of a parsed header value: already trimmed and free
of newline bytes. -/
def ValWF (v : GoStr) : Prop := trimSpace v = v ∧ 10 ∉ v

/-- Well-formedness of a parsed header map: distinct keys, each entry
well-formed. -/
def HdrsWF (hs : Headers) : Prop :=
  (hs.map Prod.fst).Nodup ∧ ∀ kv ∈ hs, KeyWF kv.1 ∧ ValWF kv.2

/-- Go-map read of the Host header followed by the `host:port` port
check of `extractHostAndPort`: a colon-bearing value must have an
integer-parseable port. -/
def hostPortOkB (hh : GoStr) : Bool :=
  match splitNChar 58 2 hh with
  | [_, p1] => (atoi p1).isSome
  | _ => true

/-- The parsed request of the C1 counterexample stream: an
absolute-form GET whose Host header carries a non-numeric port. -/
def c1CtrReq : HTTPRequest :=
  ⟨gs ("GET"), gs ("http://example.test/"), gs ("HTTP/1.1"),
    [(gs ("host"), gs ("example.test:x"))], [], gs ("example.test"), 80, false⟩

/-- The parsed request of the C1 witness stream. -/
def c1WitReq : HTTPRequest :=
  ⟨gs ("GET"), gs ("http://example.test/a?b=1"), gs ("HTTP/1.1"),
    [(gs ("host"), gs ("example.test"))], [], gs ("example.test"), 80, false⟩

/-- Block filter with two overlapping wildcard rules, in iteration
order `*.com` before `*.a.com`. -/
def overlapFilter : BlockFilter := ⟨[gs ("*.com"), gs ("*.a.com")], []⟩

/-- The upstream of the C9 failing input: a well-formed status line
and header block, three bytes of a ten-byte body, then an I/O error. -/
def truncatedUpstream : UpStream :=
  ⟨gs ("HTTP/1.1 200 OK\r\nContent-Length: 10\r\n\r\nabc"), true⟩

/-- The parsed CONNECT request of the C10 witness. -/
def c10Req : HTTPRequest :=
  ⟨gs ("CONNECT"), gs ("api.test:443"), gs ("HTTP/1.1"), [], [],
    gs ("api.test"), 443, true⟩

/-- The cache entry used in the C5 failing input. -/
def c5Entry : CacheEntry := ⟨[], 200, [97], 0, 0⟩

/-- The cache state inside the second `Put` of the C5 failing input,
after the existing key was removed from the access order (but not from
the entries map) and its size subtracted. -/
def c5Stale : Cache := ⟨[(gs ("k"), ⟨[], 200, [97], 0, 1⟩)], [], 1, 104857600, 0⟩

/-- The entry as stored by `Put`: size computed, access time set. -/
def touchedEntry (e : CacheEntry) : CacheEntry :=
  ⟨e.headers, e.statusCode, e.body, 0, entrySizeOf e⟩

/-- Sum of the stored `size` fields, the quantity `currentSize` tracks. -/
def sumSizes (es : List (GoStr × CacheEntry)) : Int :=
  (es.map (fun p => p.2.size)).sum

/-- The per-operation byte-size condition: a `put` entry fits under the
100 MiB bound. -/
def opSizeOK : CacheOp → Bool
  | CacheOp.put _ e => decide (entrySizeOf e ≤ 104857600)
  | _ => true

/-- Structural cache invariant: distinct keys, access order a
permutation of the key set, accounted size, count bound, and the fixed
configuration fields. -/
def CacheInvA (c : Cache) : Prop :=
  (c.entries.map Prod.fst).Nodup ∧
  c.accessOrder.Perm (c.entries.map Prod.fst) ∧
  c.currentSize = sumSizes c.entries ∧
  (c.entries.length : Int) ≤ c.maxEntries ∧
  1 ≤ c.maxEntries ∧
  c.maxSize = 104857600

/-- A cacheable entry whose body alone exceeds the 100 MiB cap. -/
def c3big : CacheEntry := ⟨[], 200, List.replicate 104857601 0, 0, 0⟩

/-- The state after `put` of a one-byte entry into `newCache 2`. -/
def c3WitC : Cache :=
  ⟨[(gs ("a"), ⟨[], 200, [98], 0, 1⟩)], [gs ("a")], 2, 104857600, 1⟩

lemma breakAtChar_eq_none {c : Nat} : ∀ {s : GoStr}, breakAtChar c s = none ↔ c ∉ s := by
  intro s
  induction s with
  | nil => simp [breakAtChar]
  | cons x xs ih =>
    by_cases hx : x = c
    · subst hx; simp [breakAtChar]
    · simp [breakAtChar, hx, Option.map_eq_none, ih, Ne.symm hx]

lemma breakAtChar_eq_some {c : Nat} :
    ∀ {s a b : GoStr}, breakAtChar c s = some (a, b) → s = a ++ c :: b ∧ c ∉ a := by
  intro s
  induction s with
  | nil => intro a b h; simp [breakAtChar] at h
  | cons x xs ih =>
    intro a b h
    by_cases hx : x = c
    · subst hx
      rw [breakAtChar, if_pos rfl] at h
      injection h with h
      injection h with h1 h2
      subst h1; subst h2
      simp
    · rw [breakAtChar, if_neg hx] at h
      cases hb : breakAtChar c xs with
      | none => rw [hb] at h; simp at h
      | some p =>
        obtain ⟨a', b'⟩ := p
        rw [hb] at h
        simp only [Option.map_some'] at h
        injection h with h
        injection h with h1 h2
        subst h1; subst h2
        obtain ⟨rfl, hna⟩ := ih hb
        exact ⟨by simp, by simp [hna, Ne.symm hx]⟩

lemma breakAtChar_append {c : Nat} {a : GoStr} (b : GoStr) (ha : c ∉ a) :
    breakAtChar c (a ++ c :: b) = some (a, b) := by
  induction a with
  | nil => simp [breakAtChar]
  | cons x xs ih =>
    have hx : x ≠ c := by intro h; exact ha (by simp [h])
    have hxs : c ∉ xs := fun h => ha (by simp [h])
    simp [breakAtChar, hx, ih hxs]

lemma readLine_eq_some :
    ∀ {s line rest : GoStr}, readLine s = some (line, rest) →
      s = line ++ rest ∧ ∃ a, line = a ++ [10] ∧ 10 ∉ a := by
  intro s
  induction s with
  | nil => intro line rest h; simp [readLine] at h
  | cons x xs ih =>
    intro line rest h
    by_cases hx : x = 10
    · subst hx
      rw [readLine, if_pos rfl] at h
      injection h with h
      injection h with h1 h2
      subst h1; subst h2
      exact ⟨rfl, [], by simp⟩
    · rw [readLine, if_neg hx] at h
      cases hb : readLine xs with
      | none => rw [hb] at h; simp at h
      | some p =>
        obtain ⟨l', r'⟩ := p
        rw [hb] at h
        simp only [Option.map_some'] at h
        injection h with h
        injection h with h1 h2
        subst h1; subst h2
        obtain ⟨rfl, a, rfl, hna⟩ := ih hb
        exact ⟨by simp, x :: a, by simp, by simp [hna]; omega⟩

lemma readLine_append {a : GoStr} (b : GoStr) (ha : 10 ∉ a) :
    readLine (a ++ 10 :: b) = some (a ++ [10], b) := by
  induction a with
  | nil => simp [readLine]
  | cons x xs ih =>
    have hx : x ≠ 10 := fun h => ha (by simp [h])
    have hxs : 10 ∉ xs := fun h => ha (by simp [h])
    simp [readLine, hx, ih hxs]

lemma splitNChar3_eq (c : Nat) {a b : GoStr} (d : GoStr) (ha : c ∉ a) (hb : c ∉ b) :
    splitNChar c 3 (a ++ c :: b ++ c :: d) = [a, b, d] := by
  have h1 : breakAtChar c (a ++ c :: (b ++ c :: d)) = some (a, b ++ c :: d) :=
    breakAtChar_append (b ++ c :: d) ha
  simp only [splitNChar]
  rw [show a ++ c :: b ++ c :: d = a ++ c :: (b ++ c :: d) by simp, h1]
  simp only [splitNChar]
  rw [breakAtChar_append d hb]

lemma splitNChar3_of_eq {c : Nat} {s a b d : GoStr}
    (h : splitNChar c 3 s = [a, b, d]) : s = a ++ c :: b ++ c :: d ∧ c ∉ a ∧ c ∉ b := by
  simp only [splitNChar] at h
  cases h1 : breakAtChar c s with
  | none => rw [h1] at h; simp at h
  | some p =>
    obtain ⟨a', rest⟩ := p
    rw [h1] at h
    simp only [splitNChar] at h
    cases h2 : breakAtChar c rest with
    | none => rw [h2] at h; simp at h
    | some q =>
      obtain ⟨b', d'⟩ := q
      rw [h2] at h
      simp only [List.cons.injEq] at h
      obtain ⟨rfl, rfl, rfl, -⟩ := h
      obtain ⟨rfl, hna⟩ := breakAtChar_eq_some h1
      obtain ⟨rfl, hnb⟩ := breakAtChar_eq_some h2
      exact ⟨by simp, hna, hnb⟩

lemma splitNChar2_no_sep {c : Nat} {s : GoStr} (h : c ∉ s) : splitNChar c 2 s = [s] := by
  simp only [splitNChar]
  rw [breakAtChar_eq_none.2 h]

lemma dropWhile_append_all {p : Nat → Bool} :
    ∀ {u : GoStr} (v : GoStr), (∀ c ∈ u, p c = true) → List.dropWhile p (u ++ v) = List.dropWhile p v := by
  intro u
  induction u with
  | nil => intro v _; simp
  | cons x xs ih =>
    intro v hu
    have hx : p x = true := hu x (by simp)
    simpa [List.dropWhile, hx] using ih v (fun c hc => hu c (by simp [hc]))

lemma dropWhile_eq_self_of_head {p : Nat → Bool} :
    ∀ {l : GoStr}, (∀ a, l.head? = some a → p a = false) → List.dropWhile p l = l := by
  intro l h
  cases l with
  | nil => rfl
  | cons x xs => simp [List.dropWhile, h x rfl]

lemma head_of_dropWhile_self {p : Nat → Bool} :
    ∀ {l : GoStr}, List.dropWhile p l = l → ∀ a, l.head? = some a → p a = false := by
  intro l h a ha
  cases l with
  | nil => simp at ha
  | cons x xs =>
    have hxa : x = a := by simpa using ha
    subst hxa
    by_cases hp : p x
    · rw [List.dropWhile, hp] at h
      have hlen := congrArg List.length h
      simp at hlen
      have hle : (List.dropWhile p xs).length ≤ xs.length :=
        (List.dropWhile_sublist p).length_le
      omega
    · simpa using hp

lemma trimRightB_append_all {p : Nat → Bool} {u : GoStr} (v : GoStr)
    (hv : ∀ c ∈ v, p c = true) : trimRightB p (u ++ v) = trimRightB p u := by
  unfold trimRightB
  rw [List.reverse_append, dropWhile_append_all u.reverse (fun c hc => hv c (by simpa using hc))]

lemma trimRightB_eq_self {p : Nat → Bool} {u : GoStr}
    (h : ∀ a, u.getLast? = some a → p a = false) : trimRightB p u = u := by
  unfold trimRightB
  rw [dropWhile_eq_self_of_head (by simpa [List.head?_reverse] using h), List.reverse_reverse]

lemma trimRightB_self_getLast {p : Nat → Bool} {u : GoStr}
    (h : trimRightB p u = u) : ∀ a, u.getLast? = some a → p a = false := by
  intro a ha
  have h' : List.dropWhile p u.reverse = u.reverse := by
    have := congrArg List.reverse h
    simpa [trimRightB] using this
  exact head_of_dropWhile_self h' a (by simpa [List.head?_reverse] using ha)

lemma mem_of_mem_dropWhile {p : Nat → Bool} :
    ∀ {l : GoStr} {x : Nat}, x ∈ List.dropWhile p l → x ∈ l := by
  intro l
  induction l with
  | nil => intro x h; simp at h
  | cons y ys ih =>
    intro x h
    rw [List.dropWhile] at h
    by_cases hp : p y
    · rw [hp] at h; simp at h ⊢; right; simpa using ih h
    · simp [hp] at h; simpa using h

lemma mem_of_mem_trimRightB {p : Nat → Bool} {l : GoStr} {x : Nat}
    (h : x ∈ trimRightB p l) : x ∈ l := by
  unfold trimRightB at h
  rw [List.mem_reverse] at h
  have := mem_of_mem_dropWhile h
  simpa using this

lemma mem_of_mem_trimSpace {l : GoStr} {x : Nat} (h : x ∈ trimSpace l) : x ∈ l := by
  unfold trimSpace at h
  exact mem_of_mem_dropWhile (mem_of_mem_trimRightB h)

lemma trimRightB_prefix (p : Nat → Bool) (l : GoStr) : ∃ r, trimRightB p l ++ r = l := by
  unfold trimRightB
  obtain ⟨r, hr⟩ : ∃ r, r ++ List.dropWhile p l.reverse = l.reverse :=
    ⟨List.takeWhile p l.reverse, List.takeWhile_append_dropWhile p l.reverse⟩
  refine ⟨r.reverse, ?_⟩
  have := congrArg List.reverse hr
  simpa using this

lemma dropWhile_idem (p : Nat → Bool) (l : GoStr) :
    List.dropWhile p (List.dropWhile p l) = List.dropWhile p l := by
  induction l with
  | nil => rfl
  | cons x xs ih =>
    by_cases hp : p x
    · simp [List.dropWhile, hp, ih]
    · simp [List.dropWhile, hp]

lemma trimRightB_idem (p : Nat → Bool) (l : GoStr) :
    trimRightB p (trimRightB p l) = trimRightB p l := by
  unfold trimRightB
  rw [List.reverse_reverse, dropWhile_idem]

lemma dropWhile_trimRightB_comm (p : Nat → Bool) (l : GoStr)
    (h : List.dropWhile p l = l) : List.dropWhile p (trimRightB p l) = trimRightB p l := by
  obtain ⟨r, hr⟩ := trimRightB_prefix p l
  apply dropWhile_eq_self_of_head
  intro a ha
  refine head_of_dropWhile_self h a ?_
  rw [← hr]
  cases ht : trimRightB p l with
  | nil => rw [ht] at ha; simp at ha
  | cons y ys =>
    rw [ht] at ha
    have hya : y = a := by simpa using ha
    simp [hya]

lemma trimSpace_idem (l : GoStr) : trimSpace (trimSpace l) = trimSpace l := by
  unfold trimSpace
  rw [dropWhile_trimRightB_comm isSpaceB (List.dropWhile isSpaceB l) (dropWhile_idem _ l),
    trimRightB_idem]

lemma asciiLower_asciiUpper (c : Nat) : asciiLower (asciiUpper c) = asciiLower c := by
  unfold asciiLower asciiUpper
  split_ifs <;> omega

lemma asciiLower_idem (c : Nat) : asciiLower (asciiLower c) = asciiLower c := by
  unfold asciiLower
  split_ifs <;> omega

lemma toLowerStr_idem (s : GoStr) : toLowerStr (toLowerStr s) = toLowerStr s := by
  unfold toLowerStr
  rw [List.map_map]
  exact List.map_congr_left (fun c _ => asciiLower_idem c)

lemma asciiLower_eq_of_nonletter {d : Nat} (hd : ¬(97 ≤ d ∧ d ≤ 122)) {c : Nat}
    (h : asciiLower c = d) : c = d := by
  unfold asciiLower at h
  split_ifs at h <;> omega

lemma asciiUpper_eq_of_nonletter {d : Nat} (hd : ¬(65 ≤ d ∧ d ≤ 90)) {c : Nat}
    (h : asciiUpper c = d) : c = d := by
  unfold asciiUpper at h
  split_ifs at h <;> omega

lemma isSpaceB_asciiLower (c : Nat) : isSpaceB (asciiLower c) = isSpaceB c := by
  rw [Bool.eq_iff_iff]
  unfold asciiLower isSpaceB
  split_ifs with h <;> simp <;> omega

lemma joinCh_nil (c : Nat) : joinCh c [] = [] := rfl

lemma joinCh_single (c : Nat) (h : GoStr) : joinCh c [h] = h := rfl

lemma joinCh_cons2 (c : Nat) (h g : GoStr) (t : List GoStr) :
    joinCh c (h :: g :: t) = h ++ c :: joinCh c (g :: t) := rfl

lemma splitCh_ne_nil (c : Nat) : ∀ s : GoStr, splitCh c s ≠ [] := by
  intro s
  cases s with
  | nil => simp [splitCh]
  | cons x xs =>
    rw [splitCh]
    cases splitCh c xs with
    | nil => by_cases hx : x = c <;> simp [hx]
    | cons h t => by_cases hx : x = c <;> simp [hx]

lemma splitCh_cons_eq {c x : Nat} {xs : GoStr} {h : GoStr} {t : List GoStr}
    (hs : splitCh c xs = h :: t) :
    splitCh c (x :: xs) = if x = c then [] :: h :: t else (x :: h) :: t := by
  simp only [splitCh, hs]

lemma joinCh_splitCh (c : Nat) : ∀ s : GoStr, joinCh c (splitCh c s) = s := by
  intro s
  induction s with
  | nil => rfl
  | cons x xs ih =>
    cases hs : splitCh c xs with
    | nil => exact absurd hs (splitCh_ne_nil c xs)
    | cons h t =>
      rw [hs] at ih
      rw [splitCh_cons_eq hs]
      by_cases hx : x = c
      · rw [if_pos hx, joinCh_cons2]
        simp [ih, hx]
      · rw [if_neg hx]
        cases t with
        | nil =>
          rw [joinCh_single] at ih ⊢
          simp [ih]
        | cons g u =>
          rw [joinCh_cons2] at ih ⊢
          simpa using ih

lemma map_joinCh (f : Nat → Nat) (c : Nat) (hf : f c = c) :
    ∀ l : List GoStr, (joinCh c l).map f = joinCh c (l.map (List.map f)) := by
  intro l
  induction l with
  | nil => rfl
  | cons h t ih =>
    cases t with
    | nil => rfl
    | cons g u =>
      have ih2 : List.map f (joinCh c (g :: u)) =
          joinCh c (List.map f g :: List.map (List.map f) u) := by simpa using ih
      rw [joinCh_cons2, List.map_append, List.map_cons, hf,
        List.map_cons, List.map_cons, joinCh_cons2, ih2]

lemma toLowerStr_capPart (part : GoStr) : toLowerStr (capPart part) = toLowerStr part := by
  cases part with
  | nil => rfl
  | cons c cs =>
    unfold capPart toLowerStr
    simp only [List.map_cons, List.map_map]
    rw [asciiLower_asciiUpper]
    congr 1
    exact List.map_congr_left (fun d _ => by simpa using asciiLower_idem d)

lemma toLowerStr_capitalizeHeader (k : GoStr) :
    toLowerStr (capitalizeHeader k) = toLowerStr k := by
  unfold capitalizeHeader
  rw [show toLowerStr (joinCh 45 ((splitCh 45 k).map capPart)) =
      (joinCh 45 ((splitCh 45 k).map capPart)).map asciiLower from rfl]
  rw [map_joinCh asciiLower 45 (by simp [asciiLower])]
  rw [List.map_map]
  have hparts : ((splitCh 45 k).map (List.map asciiLower ∘ capPart)) =
      (splitCh 45 k).map (List.map asciiLower) :=
    List.map_congr_left (fun part _ => toLowerStr_capPart part)
  rw [hparts, ← map_joinCh asciiLower 45 (by simp [asciiLower]), joinCh_splitCh]
  rfl

lemma mem_joinCh {x c : Nat} : ∀ {l : List GoStr}, x ∈ joinCh c l →
    x = c ∨ ∃ part ∈ l, x ∈ part := by
  intro l
  induction l with
  | nil => intro h; simp [joinCh_nil] at h
  | cons h t ih =>
    intro hx
    cases t with
    | nil =>
      rw [joinCh_single] at hx
      exact Or.inr ⟨h, by simp, hx⟩
    | cons g u =>
      rw [joinCh_cons2, List.mem_append] at hx
      rcases hx with hx | hx
      · exact Or.inr ⟨h, by simp, hx⟩
      · rcases List.mem_cons.1 hx with hx | hx
        · exact Or.inl hx
        · rcases ih hx with hc | hrest
          · exact Or.inl hc
          · obtain ⟨part, hp, hxp⟩ := hrest
            exact Or.inr ⟨part, by simp [hp], hxp⟩

lemma mem_of_mem_splitCh {c x : Nat} :
    ∀ {s : GoStr} {part : GoStr}, part ∈ splitCh c s → x ∈ part → x ∈ s := by
  intro s
  induction s with
  | nil =>
    intro part hp hx
    simp [splitCh] at hp
    subst hp
    simp at hx
  | cons y ys ih =>
    intro part hp hx
    cases hs : splitCh c ys with
    | nil => exact absurd hs (splitCh_ne_nil c ys)
    | cons h t =>
      rw [splitCh_cons_eq hs] at hp
      by_cases hy : y = c
      · rw [if_pos hy] at hp
        rcases List.mem_cons.1 hp with hp | hp
        · subst hp; simp at hx
        · have hp' : part ∈ splitCh c ys := by rw [hs]; exact hp
          exact List.mem_cons_of_mem y (ih hp' hx)
      · rw [if_neg hy] at hp
        rcases List.mem_cons.1 hp with hp | hp
        · subst hp
          rcases List.mem_cons.1 hx with hx | hx
          · simp [hx]
          · have hp' : h ∈ splitCh c ys := by rw [hs]; exact List.mem_cons_self h t
            exact List.mem_cons_of_mem y (ih hp' hx)
        · have hp' : part ∈ splitCh c ys := by rw [hs]; exact List.mem_cons_of_mem h hp
          exact List.mem_cons_of_mem y (ih hp' hx)

lemma mem_capPart {x : Nat} : ∀ {part : GoStr}, x ∈ capPart part →
    ∃ y ∈ part, x = asciiUpper y ∨ x = asciiLower y := by
  intro part hx
  cases part with
  | nil => simp [capPart] at hx
  | cons c cs =>
    rw [capPart] at hx
    rcases List.mem_cons.1 hx with hx | hx
    · exact ⟨c, by simp, Or.inl hx⟩
    · obtain ⟨y, hy, hxy⟩ := List.mem_map.1 hx
      exact ⟨y, by simp [hy], Or.inr hxy.symm⟩

lemma not_mem_capitalizeHeader {d : Nat} (hd1 : ¬(65 ≤ d ∧ d ≤ 90))
    (hd2 : ¬(97 ≤ d ∧ d ≤ 122)) (hd3 : d ≠ 45) {k : GoStr} (hk : d ∉ k) :
    d ∉ capitalizeHeader k := by
  intro hmem
  unfold capitalizeHeader at hmem
  rcases mem_joinCh hmem with h45 | hrest
  · exact hd3 h45
  · obtain ⟨part, hp, hxp⟩ := hrest
    obtain ⟨part0, hp0, rfl⟩ := List.mem_map.1 hp
    obtain ⟨y, hy, hcase⟩ := mem_capPart hxp
    have hys : y ∈ k := mem_of_mem_splitCh hp0 hy
    rcases hcase with h | h
    · have hyd : y = d := asciiUpper_eq_of_nonletter hd1 h.symm
      exact hk (hyd ▸ hys)
    · have hyd : y = d := asciiLower_eq_of_nonletter hd2 h.symm
      exact hk (hyd ▸ hys)

lemma map_dropWhile_lower (l : GoStr) :
    List.map asciiLower (List.dropWhile isSpaceB l) =
      List.dropWhile isSpaceB (List.map asciiLower l) := by
  have hp : (isSpaceB ∘ asciiLower) = isSpaceB :=
    funext (fun c => by simpa using isSpaceB_asciiLower c)
  rw [List.dropWhile_map, hp]

lemma toLowerStr_trimRightSpace (l : GoStr) :
    toLowerStr (trimRightB isSpaceB l) = trimRightB isSpaceB (toLowerStr l) := by
  unfold toLowerStr trimRightB
  rw [List.map_reverse, map_dropWhile_lower, List.map_reverse]

lemma toLowerStr_trimSpace (s : GoStr) :
    toLowerStr (trimSpace s) = trimSpace (toLowerStr s) := by
  unfold trimSpace
  rw [toLowerStr_trimRightSpace]
  congr 1
  exact map_dropWhile_lower s

lemma trimRightB_getLast {p : Nat → Bool} (l : GoStr) :
    ∀ a, (trimRightB p l).getLast? = some a → p a = false := by
  intro a ha
  unfold trimRightB at ha
  rw [List.getLast?_reverse] at ha
  exact head_of_dropWhile_self (dropWhile_idem p l.reverse) a ha

lemma trimSpace_getLast {s : GoStr} :
    ∀ a, (trimSpace s).getLast? = some a → isSpaceB a = false := by
  intro a ha
  exact trimRightB_getLast _ a ha

lemma trimRightB_suffix_closed {p : Nat → Bool} {x y : GoStr}
    (hsuf : y.IsSuffix x) (hx : trimRightB p x = x) : trimRightB p y = y := by
  apply trimRightB_eq_self
  intro a ha
  obtain ⟨u, rfl⟩ := hsuf
  have hy : y ≠ [] := by
    intro h
    rw [h] at ha
    simp at ha
  have : (u ++ y).getLast? = some a := by
    rw [List.getLast?_append_of_ne_nil u hy]
    exact ha
  exact trimRightB_self_getLast hx a this

lemma trimSpace_cons_space (v : GoStr) : trimSpace (32 :: v) = trimSpace v := by
  have h : List.dropWhile isSpaceB (32 :: v) = List.dropWhile isSpaceB v := by
    rw [List.dropWhile_cons]
    simp [isSpaceB]
  unfold trimSpace
  rw [h]

lemma keyWF_trim_lower {k0 : GoStr} (h58 : 58 ∉ k0) (h10 : 10 ∉ k0) :
    KeyWF (trimSpace (toLowerStr k0)) := by
  refine ⟨?_, trimSpace_idem _, ?_, ?_⟩
  · rw [toLowerStr_trimSpace, toLowerStr_idem]
  · intro hmem
    have h1 : 58 ∈ toLowerStr k0 := mem_of_mem_trimSpace hmem
    obtain ⟨c, hc, hcl⟩ := List.mem_map.1 h1
    have : c = 58 := asciiLower_eq_of_nonletter (by omega) hcl
    exact h58 (this ▸ hc)
  · intro hmem
    have h1 : 10 ∈ toLowerStr k0 := mem_of_mem_trimSpace hmem
    obtain ⟨c, hc, hcl⟩ := List.mem_map.1 h1
    have : c = 10 := asciiLower_eq_of_nonletter (by omega) hcl
    exact h10 (this ▸ hc)

lemma valWF_trim {v0 : GoStr} (h10 : 10 ∉ v0) : ValWF (trimSpace v0) := by
  refine ⟨trimSpace_idem _, fun hmem => h10 (mem_of_mem_trimSpace hmem)⟩

/-- The round-trip of a well-formed header key through serialization
capitalization and re-parse normalization. -/
lemma key_roundtrip {k : GoStr} (hk : KeyWF k) :
    trimSpace (toLowerStr (capitalizeHeader k)) = k := by
  rw [toLowerStr_capitalizeHeader, hk.1, hk.2.1]

lemma isCRLFB_of_isSpaceB {a : Nat} (h : isSpaceB a = false) : isCRLFB a = false := by
  unfold isSpaceB at h
  unfold isCRLFB
  simp at h ⊢
  omega

/-- Trimming the serialized header line `capK ++ ": " ++ v ++ "\\r\\n"`
recovers `capK ++ ": " ++ v` when `v` carries no trailing white-space. -/
lemma trimRightRN_header_line (u v : GoStr)
    (hv : ∀ a, v.getLast? = some a → isSpaceB a = false) :
    trimRightRN ((u ++ [58, 32] ++ v) ++ [13, 10]) = u ++ [58, 32] ++ v := by
  unfold trimRightRN
  rw [trimRightB_append_all [13, 10]
    (by intro c hc; simp at hc; rcases hc with h | h <;> simp [isCRLFB, h])]
  apply trimRightB_eq_self
  intro a ha
  cases hvv : v with
  | nil =>
    rw [hvv] at ha
    simp at ha
    subst ha
    rfl
  | cons y ys =>
    have hvne : v ≠ [] := by rw [hvv]; simp
    rw [show u ++ [58, 32] ++ v = (u ++ [58, 32]) ++ v by simp] at ha
    rw [List.getLast?_append_of_ne_nil (u ++ [58, 32]) hvne] at ha
    exact isCRLFB_of_isSpaceB (hv a ha)

lemma valWF_getLast {v : GoStr} (hv : ValWF v) :
    ∀ a, v.getLast? = some a → isSpaceB a = false := by
  intro a ha
  rw [← hv.1] at ha
  exact trimSpace_getLast a ha

lemma assocUpdate_eq_append {β : Type} {l : List (GoStr × β)} {k : GoStr} {v : β}
    (h : k ∉ l.map Prod.fst) : assocUpdate l k v = l ++ [(k, v)] := by
  induction l with
  | nil => rfl
  | cons kv t ih =>
    obtain ⟨k', v'⟩ := kv
    have hk : k' ≠ k := by
      intro he
      exact h (by simp [he])
    rw [assocUpdate, if_neg hk, ih (fun hm => h (by simp [hm]))]
    simp

lemma assocUpdate_keys_of_mem {β : Type} :
    ∀ {l : List (GoStr × β)} {k : GoStr} {v : β}, k ∈ l.map Prod.fst →
      (assocUpdate l k v).map Prod.fst = l.map Prod.fst := by
  intro l
  induction l with
  | nil => intro k v h; simp at h
  | cons kv t ih =>
    intro k v h
    obtain ⟨k', v'⟩ := kv
    by_cases hk : k' = k
    · rw [assocUpdate, if_pos hk]
      simp [hk]
    · rw [assocUpdate, if_neg hk]
      rw [List.map_cons] at h
      have hmem : k ∈ t.map Prod.fst := by
        rcases List.mem_cons.1 h with h1 | h1
        · exact absurd h1.symm hk
        · exact h1
      simp [ih hmem]

lemma assocUpdate_mem {β : Type} :
    ∀ {l : List (GoStr × β)} {k : GoStr} {v : β} {kv},
      kv ∈ assocUpdate l k v → kv ∈ l ∨ kv = (k, v) := by
  intro l
  induction l with
  | nil =>
    intro k v kv h
    simp [assocUpdate] at h
    exact Or.inr h
  | cons kv0 t ih =>
    intro k v kv h
    obtain ⟨k', v'⟩ := kv0
    by_cases hk : k' = k
    · rw [assocUpdate, if_pos hk] at h
      rcases List.mem_cons.1 h with h1 | h1
      · exact Or.inr h1
      · exact Or.inl (List.mem_cons_of_mem _ h1)
    · rw [assocUpdate, if_neg hk] at h
      rcases List.mem_cons.1 h with h1 | h1
      · exact Or.inl (by simp [h1])
      · rcases ih h1 with h2 | h2
        · exact Or.inl (List.mem_cons_of_mem _ h2)
        · exact Or.inr h2

lemma assocUpdate_HdrsWF {hs : Headers} {k v : GoStr}
    (hw : HdrsWF hs) (hk : KeyWF k) (hv : ValWF v) : HdrsWF (assocUpdate hs k v) := by
  constructor
  · by_cases hmem : k ∈ hs.map Prod.fst
    · rw [assocUpdate_keys_of_mem hmem]
      exact hw.1
    · rw [assocUpdate_eq_append hmem]
      simp only [List.map_append]
      rw [List.nodup_append]
      refine ⟨hw.1, by simp, ?_⟩
      intro a ha hb
      simp at hb
      subst hb
      exact hmem ha
  · intro kv hkv
    rcases assocUpdate_mem hkv with h1 | h1
    · exact hw.2 kv h1
    · subst h1
      exact ⟨hk, hv⟩

/-- Every header map produced by the parser's header loop is
well-formed: keys lowercased, trimmed, colon- and newline-free with no
duplicates; values trimmed and newline-free. -/
lemma parseHeaderLines_wf : ∀ (fuel : Nat) (s : GoStr) (acc hs : Headers) (rest : GoStr),
    parseHeaderLines fuel s acc = some (hs, rest) → HdrsWF acc → HdrsWF hs := by
  intro fuel
  induction fuel with
  | zero => intro s acc hs rest h _; simp [parseHeaderLines] at h
  | succ n ih =>
    intro s acc hs rest h hacc
    rw [parseHeaderLines] at h
    cases hrl : readLine s with
    | none => rw [hrl] at h; simp at h
    | some p =>
      obtain ⟨line, rest0⟩ := p
      rw [hrl] at h
      simp only at h
      by_cases hl : trimRightRN line = []
      · rw [if_pos hl] at h
        injection h with h
        injection h with h1 h2
        subst h1
        exact hacc
      · rw [if_neg hl] at h
        cases hbr : breakAtChar 58 (trimRightRN line) with
        | none => rw [hbr] at h; exact ih _ _ _ _ h hacc
        | some q =>
          obtain ⟨k0, v0⟩ := q
          rw [hbr] at h
          obtain ⟨-, a, hline, h10a⟩ := readLine_eq_some hrl
          have hltrim : trimRightRN line = trimRightRN a := by
            rw [hline]
            exact trimRightB_append_all [10] (by intro c hc; simp at hc; simp [isCRLFB, hc])
          obtain ⟨hsplit, h58⟩ := breakAtChar_eq_some hbr
          have h10k : 10 ∉ k0 := by
            intro hm
            have hmem : 10 ∈ trimRightRN line := by rw [hsplit]; simp [hm]
            rw [hltrim] at hmem
            exact h10a (mem_of_mem_trimRightB hmem)
          have h10v : 10 ∉ v0 := by
            intro hm
            have hmem : 10 ∈ trimRightRN line := by rw [hsplit]; simp [hm]
            rw [hltrim] at hmem
            exact h10a (mem_of_mem_trimRightB hmem)
          exact ih _ _ _ _ h
            (assocUpdate_HdrsWF hacc (keyWF_trim_lower h58 h10k) (valWF_trim h10v))

/-- Re-parsing a serialized header block: each emitted
`Capitalized-Name: value\r\n` line parses back to exactly its
well-formed source pair, and the closing blank line stops the loop. -/
lemma parseHeaderLines_serialized :
    ∀ (hs : Headers) (fuel : Nat) (acc : Headers) (rest : GoStr),
      (∀ kv ∈ hs, KeyWF kv.1 ∧ ValWF kv.2) → fuel ≥ hs.length + 1 →
      parseHeaderLines fuel (serializeHeaders hs ++ [13, 10] ++ rest) acc =
        some (List.foldl (fun a kv => assocUpdate a kv.1 kv.2) acc hs, rest) := by
  intro hs
  induction hs with
  | nil =>
    intro fuel acc rest _ hfuel
    cases fuel with
    | zero => omega
    | succ n =>
      rw [parseHeaderLines]
      rw [serializeHeaders]
      rw [show ([] : GoStr) ++ [13, 10] ++ rest = [13] ++ 10 :: rest by simp]
      rw [readLine_append rest (by simp)]
      simp only
      rw [if_pos (by decide)]
      rfl
  | cons kv t ih =>
    intro fuel acc rest hwf hfuel
    obtain ⟨k, v⟩ := kv
    have hkWF : KeyWF k := (hwf (k, v) (by simp)).1
    have hvWF : ValWF v := (hwf (k, v) (by simp)).2
    cases fuel with
    | zero => omega
    | succ n =>
      rw [parseHeaderLines, serializeHeaders]
      have h10cap : 10 ∉ capitalizeHeader k :=
        not_mem_capitalizeHeader (by omega) (by omega) (by omega) hkWF.2.2.2
      have h10line : 10 ∉ capitalizeHeader k ++ [58, 32] ++ v ++ [13] := by
        intro hm
        rcases List.mem_append.1 hm with hm1 | hm1
        · rcases List.mem_append.1 hm1 with hm2 | hm2
          · rcases List.mem_append.1 hm2 with hm3 | hm3
            · exact h10cap hm3
            · simp at hm3
          · exact hvWF.2 hm2
        · simp at hm1
      have hstream : capitalizeHeader k ++ [58, 32] ++ v ++ [13, 10]
            ++ serializeHeaders t ++ [13, 10] ++ rest
          = (capitalizeHeader k ++ [58, 32] ++ v ++ [13])
            ++ 10 :: (serializeHeaders t ++ [13, 10] ++ rest) := by simp
      rw [hstream, readLine_append (serializeHeaders t ++ [13, 10] ++ rest) h10line]
      simp only
      have htr : trimRightRN ((capitalizeHeader k ++ [58, 32] ++ v ++ [13]) ++ [10])
          = capitalizeHeader k ++ [58, 32] ++ v := by
        rw [show (capitalizeHeader k ++ [58, 32] ++ v ++ [13]) ++ [10]
            = (capitalizeHeader k ++ [58, 32] ++ v) ++ [13, 10] by simp]
        exact trimRightRN_header_line (capitalizeHeader k) v (valWF_getLast hvWF)
      rw [htr]
      have hne : capitalizeHeader k ++ [58, 32] ++ v ≠ [] := by simp
      rw [if_neg hne]
      have h58cap : 58 ∉ capitalizeHeader k :=
        not_mem_capitalizeHeader (by omega) (by omega) (by omega) hkWF.2.2.1
      have hbr : breakAtChar 58 (capitalizeHeader k ++ [58, 32] ++ v)
          = some (capitalizeHeader k, 32 :: v) := by
        rw [show capitalizeHeader k ++ [58, 32] ++ v
            = capitalizeHeader k ++ 58 :: (32 :: v) by simp]
        exact breakAtChar_append (32 :: v) h58cap
      rw [hbr]
      simp only
      rw [key_roundtrip hkWF, trimSpace_cons_space, hvWF.1]
      rw [ih n (assocUpdate acc k v) rest
        (fun kv2 h2 => hwf kv2 (by simp [h2])) (by simp at hfuel ⊢; omega)]
      rfl

lemma foldl_assocUpdate_fresh :
    ∀ (hs : Headers) (acc : Headers),
      (hs.map Prod.fst).Nodup → (∀ k ∈ hs.map Prod.fst, k ∉ acc.map Prod.fst) →
      List.foldl (fun a kv => assocUpdate a kv.1 kv.2) acc hs = acc ++ hs := by
  intro hs
  induction hs with
  | nil => intro acc _ _; simp
  | cons kv t ih =>
    intro acc hnd hdisj
    obtain ⟨k, v⟩ := kv
    have hk_notin : k ∉ t.map Prod.fst := (List.nodup_cons.1 (by simpa using hnd)).1
    have hnd_t : (t.map Prod.fst).Nodup := (List.nodup_cons.1 (by simpa using hnd)).2
    have hdisj2 : ∀ k2 ∈ t.map Prod.fst, k2 ∉ (acc ++ [(k, v)]).map Prod.fst := by
      intro k2 hk2 hk2acc
      rw [List.map_append] at hk2acc
      rcases List.mem_append.1 hk2acc with h1 | h1
      · exact hdisj k2 (by simp [hk2]) h1
      · have hkk : k2 = k := by simpa using h1
        exact hk_notin (hkk ▸ hk2)
    simp only [List.foldl_cons]
    rw [show assocUpdate acc (k, v).1 (k, v).2 = acc ++ [(k, v)] from
      assocUpdate_eq_append (hdisj k (by simp))]
    rw [ih (acc ++ [(k, v)]) hnd_t hdisj2]
    simp

/-- A parsed CONNECT request has an empty header map, an empty body,
and the literal method `CONNECT`. -/
lemma parse_connect_spec {s : GoStr} {r : HTTPRequest}
    (h : parseHTTPRequest s = some r) (hic : r.isConnect = true) :
    r.headers = [] ∧ r.body = [] ∧ r.method = gs ("CONNECT") := by
  rw [parseHTTPRequest] at h
  cases hrl : readLine s with
  | none => rw [hrl] at h; simp at h
  | some p =>
    obtain ⟨rl0, s1⟩ := p
    rw [hrl] at h
    simp only at h
    cases hsp : splitNChar 32 3 (trimRightRN rl0) with
    | nil => rw [hsp] at h; simp at h
    | cons m0 l1 =>
      cases l1 with
      | nil => rw [hsp] at h; simp at h
      | cons target l2 =>
        cases l2 with
        | nil => rw [hsp] at h; simp at h
        | cons version l3 =>
          cases l3 with
          | cons z l4 => rw [hsp] at h; simp at h
          | nil =>
            rw [hsp] at h
            simp only at h
            by_cases hconn : toUpperStr m0 = gs ("CONNECT")
            · rw [if_pos hconn] at h
              cases hsp2 : splitNChar 58 2 target with
              | nil => rw [hsp2] at h; simp at h
              | cons h1 l5 =>
                cases l5 with
                | nil => rw [hsp2] at h; simp at h
                | cons pstr l6 =>
                  cases l6 with
                  | cons w l7 => rw [hsp2] at h; simp at h
                  | nil =>
                    rw [hsp2] at h
                    simp only at h
                    cases hat : atoi pstr with
                    | none => rw [hat] at h; simp at h
                    | some pn =>
                      rw [hat] at h
                      simp only at h
                      injection h with h
                      subst h
                      exact ⟨rfl, rfl, hconn⟩
            · rw [if_neg hconn] at h
              cases hph : parseHeaderLines (s1.length + 1) s1 [] with
              | none => rw [hph] at h; simp at h
              | some q =>
                obtain ⟨hs, s2⟩ := q
                rw [hph] at h
                simp only at h
                cases hext : extractHostAndPort target hs with
                | none => rw [hext] at h; simp at h
                | some hp2 =>
                  obtain ⟨hst, prt⟩ := hp2
                  rw [hext] at h
                  simp only at h
                  cases hrb : readBody hs s2 with
                  | none => rw [hrb] at h; simp at h
                  | some bb =>
                    obtain ⟨b, rest2⟩ := bb
                    rw [hrb] at h
                    simp only at h
                    injection h with h
                    subst h
                    simp at hic

/-- Facts established by a successful non-CONNECT parse: well-formed
headers, destination resolution on the parsed target and headers,
body length bound to the `content-length` value, and a version free of
newlines and trailing CR/LF. -/
lemma parse_success_spec {s : GoStr} {r : HTTPRequest}
    (h : parseHTTPRequest s = some r) (hnc : r.isConnect = false) :
    HdrsWF r.headers
    ∧ extractHostAndPort r.requestTarget r.headers = some (r.host, r.port)
    ∧ (∀ v, assocFind r.headers (gs ("content-length")) = some v →
        ∃ n : Int, atoi v = some n ∧ 0 ≤ n ∧ n ≤ 10485760 ∧ (r.body.length : Int) = n)
    ∧ 10 ∉ r.version ∧ trimRightRN r.version = r.version := by
  rw [parseHTTPRequest] at h
  cases hrl : readLine s with
  | none => rw [hrl] at h; simp at h
  | some p =>
    obtain ⟨rl0, s1⟩ := p
    rw [hrl] at h
    simp only at h
    cases hsp : splitNChar 32 3 (trimRightRN rl0) with
    | nil => rw [hsp] at h; simp at h
    | cons m0 l1 =>
      cases l1 with
      | nil => rw [hsp] at h; simp at h
      | cons target l2 =>
        cases l2 with
        | nil => rw [hsp] at h; simp at h
        | cons version l3 =>
          cases l3 with
          | cons z l4 => rw [hsp] at h; simp at h
          | nil =>
            rw [hsp] at h
            simp only at h
            obtain ⟨hrlsplit, hm032, htgt32⟩ := splitNChar3_of_eq hsp
            obtain ⟨-, a, hline, h10a⟩ := readLine_eq_some hrl
            have hltrim : trimRightRN rl0 = trimRightRN a := by
              rw [hline]
              exact trimRightB_append_all [10] (by intro c hc; simp at hc; simp [isCRLFB, hc])
            have h10v : 10 ∉ version := by
              intro hm
              have hmem : 10 ∈ trimRightRN rl0 := by rw [hrlsplit]; simp [hm]
              rw [hltrim] at hmem
              exact h10a (mem_of_mem_trimRightB hmem)
            have hsuf : version.IsSuffix (trimRightRN rl0) :=
              ⟨m0 ++ 32 :: target ++ [32], by rw [hrlsplit]; simp⟩
            have htrv : trimRightRN version = version :=
              trimRightB_suffix_closed hsuf (trimRightB_idem isCRLFB rl0)
            by_cases hconn : toUpperStr m0 = gs ("CONNECT")
            · exfalso
              rw [if_pos hconn] at h
              cases hsp2 : splitNChar 58 2 target with
              | nil => rw [hsp2] at h; simp at h
              | cons h1 l5 =>
                cases l5 with
                | nil => rw [hsp2] at h; simp at h
                | cons pstr l6 =>
                  cases l6 with
                  | cons w l7 => rw [hsp2] at h; simp at h
                  | nil =>
                    rw [hsp2] at h
                    simp only at h
                    cases hat : atoi pstr with
                    | none => rw [hat] at h; simp at h
                    | some pn =>
                      rw [hat] at h
                      simp only at h
                      injection h with h
                      subst h
                      simp at hnc
            · rw [if_neg hconn] at h
              cases hph : parseHeaderLines (s1.length + 1) s1 [] with
              | none => rw [hph] at h; simp at h
              | some q =>
                obtain ⟨hs, s2⟩ := q
                rw [hph] at h
                simp only at h
                cases hext : extractHostAndPort target hs with
                | none => rw [hext] at h; simp at h
                | some hp2 =>
                  obtain ⟨hst, prt⟩ := hp2
                  rw [hext] at h
                  simp only at h
                  cases hrb : readBody hs s2 with
                  | none => rw [hrb] at h; simp at h
                  | some bb =>
                    obtain ⟨b, rest2⟩ := bb
                    rw [hrb] at h
                    simp only at h
                    injection h with h
                    subst h
                    refine ⟨parseHeaderLines_wf _ _ _ _ _ hph ⟨by simp, by simp⟩,
                      hext, ?_, h10v, htrv⟩
                    intro v hv
                    rw [readBody] at hrb
                    rw [hv] at hrb
                    simp only at hrb
                    cases hat : atoi v with
                    | none => rw [hat] at hrb; simp at hrb
                    | some n =>
                      rw [hat] at hrb
                      simp only at hrb
                      by_cases hlt : n < 0
                      · rw [if_pos hlt] at hrb; simp at hrb
                      · rw [if_neg hlt] at hrb
                        by_cases hgt : n > 10485760
                        · rw [if_pos hgt] at hrb; simp at hrb
                        · rw [if_neg hgt] at hrb
                          by_cases hlen : s2.length < n.toNat
                          · rw [if_pos hlen] at hrb; simp at hrb
                          · rw [if_neg hlen] at hrb
                            injection hrb with hrb
                            injection hrb with hb hrest
                            refine ⟨n, rfl, by omega, by omega, ?_⟩
                            rw [← hb]
                            rw [List.length_take]
                            have hton : min n.toNat s2.length = n.toNat := by omega
                            rw [hton]
                            omega

lemma percentDecode_cons47 (xs : GoStr) :
    percentDecode (47 :: xs) = (percentDecode xs).map (fun r => 47 :: r) := rfl

/-- The decoded path of a parsed URL is empty or starts with `/`. -/
lemma urlParse_path_shape {t : GoStr} {u : GoURL} (h : urlParse t = some u) :
    u.path = [] ∨ u.path.head? = some 47 := by
  rw [urlParse] at h
  by_cases hctl : t.any isCtlByte
  · rw [if_pos hctl] at h; simp at h
  · rw [if_neg hctl] at h
    simp only at h
    generalize hrst : (if isPre (gs ("http://")) t then t.drop 7 else t.drop 8) = rst at h
    cases hafter : List.dropWhile (fun c => !isAuthorityEnd c) rst with
    | nil =>
      rw [hafter] at h
      simp only [List.takeWhile_nil] at h
      cases hhp : splitHostPort
          (match breakAtLastChar 64 (List.takeWhile (fun c => !isAuthorityEnd c) rst) with
            | none => List.takeWhile (fun c => !isAuthorityEnd c) rst
            | some (_, h) => h) with
      | none => rw [hhp] at h; simp at h
      | some q =>
        obtain ⟨hn, pp⟩ := q
        rw [hhp] at h
        simp only [percentDecode] at h
        injection h with h
        subst h
        exact Or.inl rfl
    | cons c after' =>
      rw [hafter] at h
      have hc : isAuthorityEnd c = true := by
        have := head_of_dropWhile_self
          (dropWhile_idem (fun c => !isAuthorityEnd c) rst)
          c (by rw [hafter]; rfl)
        simpa using this
      simp only [isAuthorityEnd] at hc
      cases hhp : splitHostPort
          (match breakAtLastChar 64 (List.takeWhile (fun c => !isAuthorityEnd c) rst) with
            | none => List.takeWhile (fun c => !isAuthorityEnd c) rst
            | some (_, h) => h) with
      | none => rw [hhp] at h; simp at h
      | some q =>
        obtain ⟨hn, pp⟩ := q
        rw [hhp] at h
        simp only at h
        rcases (by simpa using hc : (c = 47 ∨ c = 63) ∨ c = 35) with (hc47 | hc63) | hc35
        · subst hc47
          rw [List.takeWhile_cons] at h
          simp only [show ((!(47 : Nat) == 35) = true) from by decide, if_true] at h
          rw [List.takeWhile_cons] at h
          simp only [show ((!(47 : Nat) == 63) = true) from by decide, if_true] at h
          rw [percentDecode_cons47] at h
          cases hpd : percentDecode (List.takeWhile (fun c => !(c == 63))
              (List.takeWhile (fun c => !(c == 35)) after')) with
          | none => rw [hpd] at h; simp at h
          | some pth =>
            rw [hpd] at h
            simp only [Option.map_some'] at h
            injection h with h
            subst h
            exact Or.inr rfl
        · subst hc63
          rw [List.takeWhile_cons] at h
          simp only [show ((!(63 : Nat) == 35) = true) from by decide, if_true] at h
          rw [List.takeWhile_cons] at h
          simp only [show ((!(63 : Nat) == 63) = false) from by decide, if_false] at h
          simp only [percentDecode] at h
          injection h with h
          subst h
          exact Or.inl rfl
        · subst hc35
          rw [List.takeWhile_cons] at h
          simp only [show ((!(35 : Nat) == 35) = false) from by decide, if_false] at h
          simp only [List.takeWhile_nil, percentDecode] at h
          injection h with h
          subst h
          exact Or.inl rfl

/-- A successful absolute-form destination resolution implies a
successful URL parse. -/
lemma extract_abs_urlParse {t : GoStr} {hs : Headers} {hp : GoStr × Int}
    (habs : (isPre (gs ("http://")) t || isPre (gs ("https://")) t) = true)
    (h : extractHostAndPort t hs = some hp) : ∃ u, urlParse t = some u := by
  rw [extractHostAndPort, if_pos habs] at h
  cases hu : urlParse t with
  | none => rw [hu] at h; simp at h
  | some u => exact ⟨u, rfl⟩

lemma serializeHeaders_length_ge (hs : Headers) :
    (serializeHeaders hs).length ≥ hs.length := by
  induction hs with
  | nil => simp [serializeHeaders]
  | cons kv t ih =>
    obtain ⟨k, v⟩ := kv
    rw [serializeHeaders]
    simp only [List.length_append, List.length_cons]
    simp at ih ⊢
    omega

/-- The request line written by the serializer trims back to itself. -/
lemma trimRightRN_reqline (u v : GoStr) (hv : trimRightRN v = v) :
    trimRightRN ((u ++ [32] ++ v) ++ [13, 10]) = u ++ [32] ++ v := by
  unfold trimRightRN
  rw [trimRightB_append_all [13, 10]
    (by intro c hc; simp at hc; rcases hc with h | h <;> simp [isCRLFB, h])]
  apply trimRightB_eq_self
  intro a ha
  cases hvv : v with
  | nil =>
    rw [hvv] at ha
    simp at ha
    subst ha
    rfl
  | cons y ys =>
    have hvne : v ≠ [] := by rw [hvv]; simp
    rw [show u ++ [32] ++ v = (u ++ [32]) ++ v by simp] at ha
    rw [List.getLast?_append_of_ne_nil (u ++ [32]) hvne] at ha
    exact trimRightB_self_getLast hv a ha

lemma isPre_false_of_head {c d : Nat} {p s : GoStr} (hne : c ≠ d)
    (hs : s.head? = some d) : isPre (c :: p) s = false := by
  cases s with
  | nil => simp at hs
  | cons e es =>
    have hed : e = d := by simpa using hs
    subst hed
    rw [isPre]
    have hb : (c == e) = false := by simpa using hne
    rw [hb]
    rfl

/-- The origin-form rewrite always starts with `/`. -/
lemma pathWithQuery_head {t : GoStr} {u : GoURL} (h : urlParse t = some u) :
    (pathWithQuery t).head? = some 47 := by
  unfold pathWithQuery
  rw [h]
  simp only
  rcases urlParse_path_shape h with hp | hp
  · rw [if_pos hp]
    by_cases hq : u.rawQuery ≠ []
    · rw [if_pos hq]; rfl
    · rw [if_neg hq]; rfl
  · cases hpath : u.path with
    | nil => rw [hpath] at hp; simp at hp
    | cons x xs =>
      rw [hpath] at hp
      have hx : x = 47 := by simpa using hp
      subst hx
      by_cases hq : u.rawQuery ≠ []
      · rw [if_pos hq, if_neg (show ¬(47 :: xs = []) from by simp)]
        rfl
      · rw [if_neg hq, if_neg (show ¬(47 :: xs = []) from by simp)]
        rfl

lemma splitNChar_two (c : Nat) (s : GoStr) :
    splitNChar c 2 s =
      match breakAtChar c s with
      | none => [s]
      | some (a, b) => [a, b] := rfl

/-- C1.  Serializing a successfully parsed absolute-form GET that
carries a Host header and re-parsing the bytes preserves the method,
rewrites the target to the path-with-query, and preserves the header
map — provided the Host header's port section (when present) parses
as an integer and the decoded path-with-query contains no space and no
newline byte. -/
theorem c1_serialize_reparse_amended (s : GoStr) (r : HTTPRequest)
    (hp : parseHTTPRequest s = some r)
    (hm : r.method = gs ("GET"))
    (habs : (isPre (gs ("http://")) r.requestTarget
        || isPre (gs ("https://")) r.requestTarget) = true)
    (hhost : (assocFind r.headers (gs ("host"))).isSome = true)
    (hportok : hostPortOkB ((assocFind r.headers (gs ("host"))).getD []) = true)
    (hsp32 : 32 ∉ pathWithQuery r.requestTarget)
    (hsp10 : 10 ∉ pathWithQuery r.requestTarget) :
    ∃ r2, parseHTTPRequest (serializeRequest r) = some r2
      ∧ r2.method = gs ("GET")
      ∧ r2.requestTarget = pathWithQuery r.requestTarget
      ∧ r2.headers = r.headers := by
  have hnc : r.isConnect = false := by
    cases hic : r.isConnect
    · rfl
    · exfalso
      have hcm := (parse_connect_spec hp hic).2.2
      rw [hm] at hcm
      exact absurd hcm (by decide)
  obtain ⟨hwf, hext, hcl, h10v, htrv⟩ := parse_success_spec hp hnc
  obtain ⟨u, hu⟩ := extract_abs_urlParse habs hext
  set pq := pathWithQuery r.requestTarget with hpq
  have hser : serializeRequest r
      = (gs ("GET") ++ [32] ++ pq ++ [32] ++ r.version ++ [13])
        ++ 10 :: (serializeHeaders r.headers ++ [13, 10] ++ r.body) := by
    rw [serializeRequest, if_pos habs, hm]
    simp [hpq]
  have h10A : 10 ∉ gs ("GET") ++ [32] ++ pq ++ [32] ++ r.version ++ [13] := by
    intro hm1
    rcases List.mem_append.1 hm1 with hm2 | hm2
    swap
    · simp at hm2
    rcases List.mem_append.1 hm2 with hm3 | hm3
    swap
    · exact h10v hm3
    rcases List.mem_append.1 hm3 with hm4 | hm4
    swap
    · simp at hm4
    rcases List.mem_append.1 hm4 with hm5 | hm5
    swap
    · exact hsp10 hm5
    rcases List.mem_append.1 hm5 with hm6 | hm6
    · exact absurd hm6 (by decide)
    · simp at hm6
  have htr : trimRightRN ((gs ("GET") ++ [32] ++ pq ++ [32] ++ r.version ++ [13]) ++ [10])
      = (gs ("GET") ++ [32] ++ pq) ++ [32] ++ r.version := by
    rw [show (gs ("GET") ++ [32] ++ pq ++ [32] ++ r.version ++ [13]) ++ [10]
        = ((gs ("GET") ++ [32] ++ pq) ++ [32] ++ r.version) ++ [13, 10] by simp]
    exact trimRightRN_reqline (gs ("GET") ++ [32] ++ pq) r.version htrv
  have hsplit3 : splitNChar 32 3 ((gs ("GET") ++ [32] ++ pq) ++ [32] ++ r.version)
      = [gs ("GET"), pq, r.version] := by
    rw [show (gs ("GET") ++ [32] ++ pq) ++ [32] ++ r.version
        = gs ("GET") ++ 32 :: pq ++ 32 :: r.version by simp]
    exact splitNChar3_eq 32 r.version (by decide) hsp32
  have hpqhead : pq.head? = some 47 := pathWithQuery_head hu
  have habs2f : (isPre (gs ("http://")) pq || isPre (gs ("https://")) pq) = false := by
    have h1 : isPre (gs ("http://")) pq = false := by
      rw [show gs ("http://") = 104 :: gs ("ttp://") from by decide]
      exact isPre_false_of_head (by decide) hpqhead
    have h2 : isPre (gs ("https://")) pq = false := by
      rw [show gs ("https://") = 104 :: gs ("ttps://") from by decide]
      exact isPre_false_of_head (by decide) hpqhead
    rw [h1, h2]
    rfl
  obtain ⟨hh, hfind⟩ := Option.isSome_iff_exists.1 hhost
  rw [hfind] at hportok
  simp only [Option.getD_some] at hportok
  have hExtract : ∃ hv pv, extractHostAndPort pq r.headers = some (hv, pv) := by
    cases hbr2 : breakAtChar 58 hh with
    | none =>
      have hsn : splitNChar 58 2 hh = [hh] := by rw [splitNChar_two, hbr2]
      refine ⟨hh, 80, ?_⟩
      rw [extractHostAndPort, if_neg (by rw [habs2f]; simp), hfind]
      simp only
      rw [hsn]
    | some q =>
      obtain ⟨h1, p1⟩ := q
      have hsn : splitNChar 58 2 hh = [h1, p1] := by rw [splitNChar_two, hbr2]
      rw [hostPortOkB, hsn] at hportok
      simp only at hportok
      obtain ⟨pn, hpn⟩ := Option.isSome_iff_exists.1 hportok
      refine ⟨h1, pn, ?_⟩
      rw [extractHostAndPort, if_neg (by rw [habs2f]; simp), hfind]
      simp only
      rw [hsn]
      simp only
      rw [hpn]
  obtain ⟨hv, pv, hext2⟩ := hExtract
  have hBody : ∃ bv rv, readBody r.headers r.body = some (bv, rv) := by
    cases hcl2 : assocFind r.headers (gs ("content-length")) with
    | none => exact ⟨[], r.body, by rw [readBody, hcl2]⟩
    | some cl =>
      obtain ⟨n, hn, hn0, hnle, hblen⟩ := hcl cl hcl2
      refine ⟨r.body.take n.toNat, r.body.drop n.toNat, ?_⟩
      rw [readBody, hcl2]
      simp only
      rw [hn]
      simp only
      rw [if_neg (by omega), if_neg (by omega), if_neg (by omega)]
  obtain ⟨bv, rv, hrb2⟩ := hBody
  refine ⟨⟨gs ("GET"), pq, r.version, r.headers, bv, hv, pv, false⟩, ?_, rfl, rfl, rfl⟩
  rw [parseHTTPRequest, hser, readLine_append _ h10A]
  simp only
  rw [htr, hsplit3]
  simp only
  rw [show toUpperStr (gs ("GET")) = gs ("GET") from by decide]
  rw [if_neg (show ¬(gs ("GET") = gs ("CONNECT")) from by decide)]
  have hwfpairs : ∀ kv ∈ r.headers, KeyWF kv.1 ∧ ValWF kv.2 := hwf.2
  have hfuel : (serializeHeaders r.headers ++ [13, 10] ++ r.body).length + 1
      ≥ r.headers.length + 1 := by
    have hge := serializeHeaders_length_ge r.headers
    simp only [List.length_append]
    omega
  have hph2 : parseHeaderLines ((serializeHeaders r.headers ++ [13, 10] ++ r.body).length + 1)
      (serializeHeaders r.headers ++ [13, 10] ++ r.body) [] = some (r.headers, r.body) := by
    have h0 := parseHeaderLines_serialized r.headers
      ((serializeHeaders r.headers ++ [13, 10] ++ r.body).length + 1) [] r.body hwfpairs hfuel
    rw [foldl_assocUpdate_fresh r.headers [] hwf.1 (by intro k _ hk2; simp at hk2)] at h0
    simpa using h0
  rw [hph2]
  simp only
  rw [hext2]
  simp only
  rw [hrb2]

/-- C1 counterexample: the claim as stated fails.  The stream parses
to an absolute-form GET carrying a Host header, but re-parsing the
serialized bytes fails outright — the rewritten origin-form target
forces destination resolution through the Host header, whose port
section `x` does not parse as an integer. -/
theorem c1_counterexample :
    parseHTTPRequest (gs ("GET http://example.test/ HTTP/1.1\r\nHost: example.test:x\r\n\r\n"))
      = some c1CtrReq
    ∧ c1CtrReq.method = gs ("GET")
    ∧ isPre (gs ("http://")) c1CtrReq.requestTarget = true
    ∧ assocFind c1CtrReq.headers (gs ("host")) = some (gs ("example.test:x"))
    ∧ parseHTTPRequest (serializeRequest c1CtrReq) = none := by decide

/-- C1 witness: the amended round-trip theorem applied to the spec's
plain-GET scenario. -/
theorem c1_witness :
    ∃ r2, parseHTTPRequest (serializeRequest c1WitReq) = some r2
      ∧ r2.method = gs ("GET")
      ∧ r2.requestTarget = pathWithQuery c1WitReq.requestTarget
      ∧ r2.headers = c1WitReq.headers :=
  c1_serialize_reparse_amended
    (gs ("GET http://example.test/a?b=1 HTTP/1.1\r\nHost: example.test\r\n\r\n"))
    c1WitReq (by decide) (by decide) (by decide) (by decide) (by decide) (by decide) (by decide)

lemma findWildcard_some {h : GoStr} :
    ∀ {l : List GoStr} {d : GoStr}, findWildcard h l = some d → d ∈ l ∧ WildMatch d h := by
  intro l
  induction l with
  | nil => intro d hf; simp [findWildcard] at hf
  | cons d0 t ih =>
    intro d hf
    rw [findWildcard] at hf
    by_cases hw : WildMatch d0 h
    · rw [if_pos hw] at hf
      injection hf with hf
      subst hf
      exact ⟨by simp, hw⟩
    · rw [if_neg hw] at hf
      obtain ⟨hm, hwm⟩ := ih hf
      exact ⟨by simp [hm], hwm⟩

lemma findWildcard_none {h : GoStr} :
    ∀ {l : List GoStr}, findWildcard h l = none ↔ ∀ d ∈ l, ¬WildMatch d h := by
  intro l
  induction l with
  | nil => simp [findWildcard]
  | cons d0 t ih =>
    constructor
    · intro hf d hd
      rw [findWildcard] at hf
      by_cases hw : WildMatch d0 h
      · rw [if_pos hw] at hf; simp at hf
      · rw [if_neg hw] at hf
        rcases List.mem_cons.1 hd with h1 | h1
        · subst h1; exact hw
        · exact ih.1 hf d h1
    · intro hall
      rw [findWildcard, if_neg (hall d0 (by simp))]
      exact ih.2 (fun d hd => hall d (by simp [hd]))

lemma findWildcard_unique {h : GoStr} :
    ∀ {l : List GoStr} {w : GoStr}, w ∈ l → WildMatch w h →
      (∀ d ∈ l, WildMatch d h → d = w) → findWildcard h l = some w := by
  intro l
  induction l with
  | nil => intro w hw _ _; simp at hw
  | cons d0 t ih =>
    intro w hw hwm huniq
    rw [findWildcard]
    by_cases h0 : WildMatch d0 h
    · rw [if_pos h0]
      rw [huniq d0 (by simp) h0]
    · rw [if_neg h0]
      rcases List.mem_cons.1 hw with h1 | h1
      · subst h1; exact absurd hwm h0
      · exact ih h1 hwm (fun d hd hdm => huniq d (by simp [hd]) hdm)

/-- C2 (amended).  With no exact domain or IP rule matching the
canonical host: `is_blocked` reports a block exactly when some
wildcard rule matches, and the returned rule is always a matching
wildcard rule of the set; the original `*.X` rule itself is returned
whenever it is the unique matching wildcard (but with several
overlapping wildcard rules an earlier one in iteration order may be
returned instead); hosts matching no rule yield `(false, "")`. -/
theorem c2_wildcard_matching (f : BlockFilter) (host0 : GoStr)
    (hd : toLowerStr (trimSpace host0) ∉ f.blockedDomains)
    (hi : toLowerStr (trimSpace host0) ∉ f.blockedIPs) :
    ((isBlocked f host0).1 = true ↔
        ∃ d ∈ f.blockedDomains, WildMatch d (toLowerStr (trimSpace host0)))
    ∧ (∀ d, isBlocked f host0 = (true, d) →
        d ∈ f.blockedDomains ∧ WildMatch d (toLowerStr (trimSpace host0)))
    ∧ (∀ w, w ∈ f.blockedDomains → WildMatch w (toLowerStr (trimSpace host0)) →
        (∀ d ∈ f.blockedDomains, WildMatch d (toLowerStr (trimSpace host0)) → d = w) →
        isBlocked f host0 = (true, w))
    ∧ ((∀ d ∈ f.blockedDomains, ¬WildMatch d (toLowerStr (trimSpace host0))) →
        isBlocked f host0 = (false, [])) := by
  unfold isBlocked
  simp only
  rw [if_neg hd, if_neg hi]
  refine ⟨?_, ?_, ?_, ?_⟩
  · constructor
    · intro hb
      cases hf : findWildcard (toLowerStr (trimSpace host0)) f.blockedDomains with
      | none => rw [hf] at hb; simp at hb
      | some d =>
        obtain ⟨hm, hwm⟩ := findWildcard_some hf
        exact ⟨d, hm, hwm⟩
    · intro hex
      cases hf : findWildcard (toLowerStr (trimSpace host0)) f.blockedDomains with
      | none =>
        obtain ⟨d, hm, hwm⟩ := hex
        exact absurd hwm (findWildcard_none.1 hf d hm)
      | some d => rfl
  · intro d hb
    cases hf : findWildcard (toLowerStr (trimSpace host0)) f.blockedDomains with
    | none => rw [hf] at hb; simp at hb
    | some d0 =>
      rw [hf] at hb
      simp only at hb
      injection hb with hb1 hb2
      subst hb2
      exact findWildcard_some hf
  · intro w hw hwm huniq
    rw [findWildcard_unique hw hwm huniq]
  · intro hall
    rw [findWildcard_none.2 hall]

/-- C2 counterexample: the claim as stated fails.  For the rule set
`{*.com, *.a.com}` and host `h.a.com` — which matches the `*.a.com`
condition and matches no exact or IP rule — `is_blocked` returns the
rule `*.com`, not the original `*.a.com` rule. -/
theorem c2_counterexample :
    (gs ("h.a.com") : GoStr) ∉ overlapFilter.blockedDomains
    ∧ (gs ("h.a.com") : GoStr) ∉ overlapFilter.blockedIPs
    ∧ gs ("*.a.com") ∈ overlapFilter.blockedDomains
    ∧ isSuf (gs (".a.com")) (gs ("h.a.com")) = true
    ∧ isBlocked overlapFilter (gs ("h.a.com")) = (true, gs ("*.com"))
    ∧ isBlocked overlapFilter (gs ("h.a.com")) ≠ (true, gs ("*.a.com")) := by decide

/-- C2 witness: the amended theorem applied to the spec's wildcard
scenario — `*.mal.test` is the unique matching wildcard for
`a.b.mal.test`, so it is returned. -/
theorem c2_witness :
    isBlocked ⟨[gs ("*.mal.test")], []⟩ (gs ("a.b.mal.test"))
      = (true, gs ("*.mal.test")) :=
  (c2_wildcard_matching ⟨[gs ("*.mal.test")], []⟩ (gs ("a.b.mal.test"))
    (by decide) (by decide)).2.2.1 (gs ("*.mal.test")) (by decide) (by decide) (by decide)

/-- C6.  Body reading: when `content-length` is absent the body is
empty and the stream is untouched; a successful read implies the value
parses as an integer in `[0, 10485760]` and the body is exactly that
many bytes taken from the front of the stream; an unparseable,
negative, or oversized value is a parse failure. -/
theorem c6_body_reading (hs : Headers) (s : GoStr) :
    (assocFind hs (gs ("content-length")) = none → readBody hs s = some ([], s))
    ∧ (∀ v b r, assocFind hs (gs ("content-length")) = some v → readBody hs s = some (b, r) →
        ∃ n : Int, atoi v = some n ∧ 0 ≤ n ∧ n ≤ 10485760
          ∧ (b.length : Int) = n ∧ b ++ r = s)
    ∧ (∀ v, assocFind hs (gs ("content-length")) = some v → atoi v = none →
        readBody hs s = none)
    ∧ (∀ v n, assocFind hs (gs ("content-length")) = some v → atoi v = some n →
        (n < 0 ∨ n > 10485760) → readBody hs s = none) := by
  refine ⟨?_, ?_, ?_, ?_⟩
  · intro h
    rw [readBody, h]
  · intro v b r hv hrb
    rw [readBody, hv] at hrb
    simp only at hrb
    cases hat : atoi v with
    | none => rw [hat] at hrb; simp at hrb
    | some n =>
      rw [hat] at hrb
      simp only at hrb
      by_cases h1 : n < 0
      · rw [if_pos h1] at hrb; simp at hrb
      · rw [if_neg h1] at hrb
        by_cases h2 : n > 10485760
        · rw [if_pos h2] at hrb; simp at hrb
        · rw [if_neg h2] at hrb
          by_cases h3 : s.length < n.toNat
          · rw [if_pos h3] at hrb; simp at hrb
          · rw [if_neg h3] at hrb
            injection hrb with hrb
            injection hrb with hb hr
            subst hb
            subst hr
            refine ⟨n, rfl, by omega, by omega, ?_, List.take_append_drop _ s⟩
            rw [List.length_take]
            omega
  · intro v hv hat
    rw [readBody, hv]
    simp only
    rw [hat]
  · intro v n hv hat hbad
    rw [readBody, hv]
    simp only
    rw [hat]
    simp only
    rcases hbad with hb | hb
    · rw [if_pos hb]
    · rw [if_neg (by omega), if_pos hb]

/-- C6 witness: the theorem applied to a concrete three-byte body. -/
theorem c6_witness :
    ∃ n : Int, atoi (gs ("3")) = some n ∧ 0 ≤ n ∧ n ≤ 10485760
      ∧ ((gs ("abc")).length : Int) = n ∧ gs ("abc") ++ gs ("de") = gs ("abcde") :=
  (c6_body_reading [(gs ("content-length"), gs ("3"))] (gs ("abcde"))).2.1
    (gs ("3")) (gs ("abc")) (gs ("de")) (by decide) (by decide)

/-- C7 (amended).  Destination resolution guarantees the 1–65535 port
range only for default ports: when the absolute-form URI carries no
explicit port, or the Host header carries no colon, the resolved port
is 443 or 80 and hence in range.  Explicit ports are accepted by
`Atoi` without range validation, and the host is taken verbatim — in
the Host-header branch the resolved host is the raw header value, not
its lowercasing. -/
theorem c7_default_port_range (t : GoStr) (hs : Headers) (h : GoStr) (p : Int)
    (he : extractHostAndPort t hs = some (h, p))
    (hup : (urlParse t).elim True (fun u => u.portStr = []))
    (hhp : (assocFind hs (gs ("host"))).elim True (fun hh => ¬(58 ∈ hh))) :
    ((p = 80 ∨ p = 443) ∧ 1 ≤ p ∧ p ≤ 65535)
    ∧ (∀ hh, (isPre (gs ("http://")) t || isPre (gs ("https://")) t) = false →
        assocFind hs (gs ("host")) = some hh → h = hh) := by
  rw [extractHostAndPort] at he
  by_cases habs : (isPre (gs ("http://")) t || isPre (gs ("https://")) t) = true
  · rw [if_pos habs] at he
    cases hu : urlParse t with
    | none => rw [hu] at he; simp at he
    | some u =>
      rw [hu] at he
      simp only at he
      rw [hu] at hup
      simp only [Option.elim] at hup
      rw [if_pos hup] at he
      injection he with he
      injection he with he1 he2
      constructor
      · by_cases hss : isPre (gs ("https://")) t = true
        · rw [if_pos hss] at he2
          omega
        · rw [if_neg hss] at he2
          omega
      · intro hh hfalse _
        rw [habs] at hfalse
        simp at hfalse
  · rw [if_neg habs] at he
    cases hfind : assocFind hs (gs ("host")) with
    | none => rw [hfind] at he; simp at he
    | some hh =>
      rw [hfind] at he
      simp only at he
      rw [hfind] at hhp
      simp only [Option.elim] at hhp
      rw [show splitNChar 58 2 hh = [hh] from by
        rw [splitNChar_two, breakAtChar_eq_none.2 hhp]] at he
      simp only at he
      injection he with he
      injection he with he1 he2
      constructor
      · omega
      · intro hh2 _ hfind2
        injection hfind2 with hf2
        rw [← he1, hf2]

/-- C7 counterexample: the claim as stated fails.  The request with
`Host: EXAMPLE.com:0` parses successfully, yet the resolved host keeps
its upper-case bytes and the resolved port 0 lies outside 1–65535. -/
theorem c7_counterexample :
    parseHTTPRequest (gs ("GET / HTTP/1.1\r\nHost: EXAMPLE.com:0\r\n\r\n"))
      = some ⟨gs ("GET"), gs ("/"), gs ("HTTP/1.1"),
          [(gs ("host"), gs ("EXAMPLE.com:0"))], [], gs ("EXAMPLE.com"), 0, false⟩
    ∧ toLowerStr (gs ("EXAMPLE.com")) ≠ gs ("EXAMPLE.com")
    ∧ ¬(1 ≤ (0 : Int)) := by decide

/-- C7 witness: the amended theorem at an absolute-form target with no
explicit port. -/
theorem c7_witness :
    (((80 : Int) = 80 ∨ (80 : Int) = 443) ∧ 1 ≤ (80 : Int) ∧ (80 : Int) ≤ 65535) :=
  (c7_default_port_range (gs ("http://example.test/")) [] (gs ("example.test")) 80
    (by decide) (by exact rfl) (by exact trivial)).1

/-- C8 (amended).  Every error response produced by
`sendErrorResponse` — the 400, 403, 407, 501 and the forwarding 502 —
consists of the status line, `Content-Type: text/plain`, a
`Content-Length` equal to the body length, `Connection: close`, a
blank line and a `"<code> <reason>"` body; the 502 written on a
CONNECT upstream dial failure instead consists of the bare status
line and a blank line only. -/
theorem c8_error_response_format :
    (∀ (code : Int) (msg : GoStr), sendErrorResponse code msg = specErrorResponse code msg)
    ∧ connectDialFailResponse = gs ("HTTP/1.1 502 Bad Gateway") ++ [13, 10, 13, 10] :=
  ⟨fun _ _ => rfl, by decide⟩

/-- C8 counterexample: the claim as stated fails.  The 502 sent when a
CONNECT upstream dial fails does not carry the specified headers and
body. -/
theorem c8_counterexample :
    connectDialFailResponse ≠ specErrorResponse 502 (gs ("Bad Gateway")) := by decide

/-- C9: evaluation of the code at the failing input.  The upstream
errors mid-body after the response has begun (all upstream bytes were
relayed), and the connection handler then appends a full 502 error
response after the truncated response — the claim (and spec) say the
client receives only the truncated response. -/
theorem c9_bug_502_after_partial_response :
    (forwardResponse truncatedUpstream).2.1 = truncatedUpstream.data
    ∧ (forwardResponse truncatedUpstream).2.2 = true
    ∧ (forwardResponse truncatedUpstream).2.1 ≠ []
    ∧ clientBytesAfterForward truncatedUpstream
        = truncatedUpstream.data ++ sendErrorResponse 502 (gs ("Bad Gateway")) := by decide

/-- C10.  With a non-empty authentication token, every parsed CONNECT
request is answered 407: CONNECT parsing returns an empty header map,
so the proxy-authorization lookup yields the empty string and the
authentication check fails regardless of what the client sent. -/
theorem c10_connect_auth_always_407 (s tok : GoStr) (r : HTTPRequest)
    (et : Bool) (flt : BlockFilter) (cache : Option Cache)
    (hp : parseHTTPRequest s = some r) (hic : r.isConnect = true) (htok : tok ≠ []) :
    handleParsed tok et flt cache r = ProxyAction.auth407 ∧ r.headers = [] := by
  have hh := (parse_connect_spec hp hic).1
  refine ⟨?_, hh⟩
  have hcond : tok ≠ [] ∧ (assocFind r.headers (gs ("proxy-authorization"))).getD [] ≠ tok := by
    refine ⟨htok, ?_⟩
    rw [hh]
    simp only [assocFind, Option.getD_none]
    exact fun he => htok he.symm
  rw [handleParsed, if_pos hcond]

/-- C10 witness: the theorem at a concrete CONNECT request and token. -/
theorem c10_witness :
    handleParsed (gs ("secret")) true ⟨[], []⟩ none c10Req = ProxyAction.auth407 :=
  (c10_connect_auth_always_407 (gs ("CONNECT api.test:443 HTTP/1.1\r\n")) (gs ("secret"))
    c10Req true ⟨[], []⟩ none (by decide) (by decide) (by decide)).1

/-- C5: the claim is right and the code is wrong.  `Put` on an
existing key with `max_entries = 1` does not terminate: the key was
removed from the access order but not from the entries map, so the
eviction guard stays true while `evictLRU` makes no progress — the
loop diverges for every amount of fuel, and the two-`put` operation
sequence has no result state. -/
theorem c5_put_existing_key_diverges :
    (∀ fuel : Nat, evictLoop fuel 1 c5Stale = none)
    ∧ runCacheOps (newCache 1)
        [CacheOp.put (gs ("k")) c5Entry, CacheOp.put (gs ("k")) c5Entry] = none := by
  constructor
  · intro fuel
    induction fuel with
    | zero => rfl
    | succ n ih =>
      rw [evictLoop, if_pos (by decide)]
      rw [show evictLRU c5Stale = c5Stale from rfl]
      exact ih
  · decide

lemma runCacheOps_cons {c c' : Cache} {op : CacheOp} (t : List CacheOp)
    (h : applyCacheOp c op = some c') :
    runCacheOps c (op :: t) = runCacheOps c' t := by
  rw [runCacheOps, h]

lemma evictLoop_exit {c : Cache} {sz : Int} (fuel : Nat)
    (h : ¬(((c.entries.length : Int) ≥ c.maxEntries ∨ c.currentSize + sz > c.maxSize)
        ∧ c.entries.length > 0)) :
    evictLoop (fuel + 1) sz c = some c := by
  rw [evictLoop, if_neg h]

lemma evictLoop_step {c : Cache} {sz : Int} (fuel : Nat)
    (h : ((c.entries.length : Int) ≥ c.maxEntries ∨ c.currentSize + sz > c.maxSize)
        ∧ c.entries.length > 0) :
    evictLoop (fuel + 1) sz c = evictLoop fuel sz (evictLRU c) := by
  rw [evictLoop, if_pos h]

/-- C4.  LRU eviction: with `max_entries = 2`, distinct keys and
entries that fit under the byte bound, the sequence
put K1, put K2, get K1, put K3 leaves exactly K1 and K3 in the cache
(K2, the least recently used, was evicted). -/
theorem c4_lru_eviction (k1 k2 k3 : GoStr) (e1 e2 e3 : CacheEntry)
    (h12 : k1 ≠ k2) (h13 : k1 ≠ k3) (h23 : k2 ≠ k3)
    (hs2 : entrySizeOf e1 + entrySizeOf e2 ≤ 104857600)
    (hs3 : entrySizeOf e1 + entrySizeOf e3 ≤ 104857600) :
    ∃ c, runCacheOps (newCache 2)
        [CacheOp.put k1 e1, CacheOp.put k2 e2, CacheOp.get k1, CacheOp.put k3 e3] = some c
      ∧ c.entries.map Prod.fst = [k1, k3] := by
  set E1 := touchedEntry e1 with hE1
  set E2 := touchedEntry e2 with hE2
  set E3 := touchedEntry e3 with hE3
  have s1eq : applyCacheOp (newCache 2) (CacheOp.put k1 e1)
      = some ⟨[(k1, E1)], [k1], 2, 104857600, 0 + entrySizeOf e1⟩ := by
    show cachePut (newCache 2) k1 e1 = _
    rw [cachePut]
    simp only [newCache, assocFind, List.length_nil]
    rw [evictLoop_exit _ ?f1]
    case f1 => intro hc; simpa using hc.2
    simp [assocUpdate, touchedEntry, hE1]
  have s2eq : applyCacheOp ⟨[(k1, E1)], [k1], 2, 104857600, 0 + entrySizeOf e1⟩
        (CacheOp.put k2 e2)
      = some ⟨[(k1, E1), (k2, E2)], [k1, k2], 2, 104857600,
          0 + entrySizeOf e1 + entrySizeOf e2⟩ := by
    show cachePut _ k2 e2 = _
    rw [cachePut]
    simp only [assocFind, if_neg h12, List.length_cons, List.length_nil]
    rw [evictLoop_exit _ ?f2]
    case f2 =>
      intro hc
      rcases hc.1 with hcb | hcb
      · simp at hcb
      · simp only [hE1, touchedEntry] at hcb
        simp at hcb
        omega
    simp [assocUpdate, h12, touchedEntry, hE1, hE2]
  have s3eq : applyCacheOp ⟨[(k1, E1), (k2, E2)], [k1, k2], 2, 104857600,
        0 + entrySizeOf e1 + entrySizeOf e2⟩ (CacheOp.get k1)
      = some ⟨[(k1, E1), (k2, E2)], [k2, k1], 2, 104857600,
          0 + entrySizeOf e1 + entrySizeOf e2⟩ := by
    show some (cacheGet _ k1).1 = _
    rw [cacheGet]
    simp [assocFind, assocUpdate, removeFirstStr, h12, Ne.symm h12, touchedEntry, hE1]
  have s4eq : applyCacheOp ⟨[(k1, E1), (k2, E2)], [k2, k1], 2, 104857600,
        0 + entrySizeOf e1 + entrySizeOf e2⟩ (CacheOp.put k3 e3)
      = some ⟨[(k1, E1), (k3, E3)], [k1, k3], 2, 104857600,
          0 + entrySizeOf e1 + entrySizeOf e2 - E2.size + entrySizeOf e3⟩ := by
    show cachePut _ k3 e3 = _
    rw [cachePut]
    simp only [assocFind, if_neg h13, if_neg h23, List.length_cons, List.length_nil]
    rw [evictLoop_step _ ?c4cond]
    case c4cond => exact ⟨Or.inl (by simp), by simp⟩
    rw [show evictLRU ⟨[(k1, E1), (k2, E2)], [k2, k1], 2, 104857600,
          0 + entrySizeOf e1 + entrySizeOf e2⟩
        = ⟨[(k1, E1)], [k1], 2, 104857600,
            0 + entrySizeOf e1 + entrySizeOf e2 - E2.size⟩ from by
      rw [evictLRU]
      simp [assocFind, assocErase, h12, Ne.symm h12]]
    rw [evictLoop_exit _ ?f3]
    case f3 =>
      intro hc
      rcases hc.1 with hcb | hcb
      · simp at hcb
      · simp only [hE1, hE2, touchedEntry] at hcb
        simp at hcb
        omega
    simp [assocUpdate, h13, h23, touchedEntry, hE3]
  have hrun : runCacheOps (newCache 2)
      [CacheOp.put k1 e1, CacheOp.put k2 e2, CacheOp.get k1, CacheOp.put k3 e3]
      = some ⟨[(k1, E1), (k3, E3)], [k1, k3], 2, 104857600,
          0 + entrySizeOf e1 + entrySizeOf e2 - E2.size + entrySizeOf e3⟩ :=
    (runCacheOps_cons _ s1eq).trans
      ((runCacheOps_cons _ s2eq).trans
        ((runCacheOps_cons _ s3eq).trans
          ((runCacheOps_cons _ s4eq).trans rfl)))
  exact ⟨_, hrun, by simp⟩

/-- C4 witness: the theorem at concrete keys and one-byte entries. -/
theorem c4_witness :
    ∃ c, runCacheOps (newCache 2)
        [CacheOp.put (gs ("K1")) ⟨[], 200, [97], 0, 0⟩,
         CacheOp.put (gs ("K2")) ⟨[], 200, [98], 0, 0⟩,
         CacheOp.get (gs ("K1")),
         CacheOp.put (gs ("K3")) ⟨[], 200, [99], 0, 0⟩] = some c
      ∧ c.entries.map Prod.fst = [gs ("K1"), gs ("K3")] :=
  c4_lru_eviction (gs ("K1")) (gs ("K2")) (gs ("K3"))
    ⟨[], 200, [97], 0, 0⟩ ⟨[], 200, [98], 0, 0⟩ ⟨[], 200, [99], 0, 0⟩
    (by decide) (by decide) (by decide) (by decide) (by decide)

/-! ## Cache invariants (C3) -/

lemma sumSizes_cons (kv : GoStr × CacheEntry) (t : List (GoStr × CacheEntry)) :
    sumSizes (kv :: t) = kv.2.size + sumSizes t := by
  simp [sumSizes]

lemma sumSizes_append (l1 l2 : List (GoStr × CacheEntry)) :
    sumSizes (l1 ++ l2) = sumSizes l1 + sumSizes l2 := by
  simp [sumSizes]

lemma assocFind_eq_none_iff {β : Type} : ∀ {es : List (GoStr × β)} {k : GoStr},
    assocFind es k = none ↔ k ∉ es.map Prod.fst := by
  intro es
  induction es with
  | nil => intro k; simp [assocFind]
  | cons kv t ih =>
    intro k
    obtain ⟨k', v'⟩ := kv
    by_cases hk : k' = k
    · subst hk; simp [assocFind]
    · simp [assocFind, hk, Ne.symm hk, ih]

lemma assocFind_mem_keys {β : Type} {es : List (GoStr × β)} {k : GoStr} {v : β}
    (h : assocFind es k = some v) : k ∈ es.map Prod.fst := by
  by_contra hm
  rw [assocFind_eq_none_iff.2 hm] at h
  exact Option.noConfusion h

lemma assocFind_isSome_of_mem {β : Type} {es : List (GoStr × β)} {k : GoStr}
    (h : k ∈ es.map Prod.fst) : ∃ v, assocFind es k = some v := by
  cases hf : assocFind es k with
  | none => exact absurd h (assocFind_eq_none_iff.1 hf)
  | some v => exact ⟨v, rfl⟩

lemma assocErase_perm {β : Type} : ∀ {es : List (GoStr × β)} {k : GoStr} {v : β},
    assocFind es k = some v → es.Perm ((k, v) :: assocErase es k) := by
  intro es
  induction es with
  | nil => intro k v h; simp [assocFind] at h
  | cons kv t ih =>
    intro k v h
    obtain ⟨k', v'⟩ := kv
    by_cases hk : k' = k
    · simp only [assocFind, if_pos hk] at h
      injection h with h
      subst hk
      subst h
      simp only [assocErase, if_pos rfl]
      simp
    · simp only [assocFind, if_neg hk] at h
      simp only [assocErase, if_neg hk]
      exact ((ih h).cons (k', v')).trans (List.Perm.swap (k, v) (k', v') _)

lemma assocFind_assocErase_ne {β : Type} : ∀ {es : List (GoStr × β)} {j k : GoStr},
    j ≠ k → assocFind (assocErase es j) k = assocFind es k := by
  intro es
  induction es with
  | nil => intro j k _; rfl
  | cons kv t ih =>
    intro j k hjk
    obtain ⟨k', v'⟩ := kv
    by_cases hj : k' = j
    · simp only [assocErase, if_pos hj, assocFind, if_neg (hj.trans_ne hjk)]
    · simp only [assocErase, if_neg hj, assocFind]
      by_cases hk : k' = k
      · rw [if_pos hk, if_pos hk]
      · rw [if_neg hk, if_neg hk, ih hjk]

lemma assocErase_keys_mem {β : Type} : ∀ {es : List (GoStr × β)} {j a : GoStr},
    a ∈ (assocErase es j).map Prod.fst → a ∈ es.map Prod.fst := by
  intro es
  induction es with
  | nil => intro j a h; simp [assocErase] at h
  | cons kv t ih =>
    intro j a h
    obtain ⟨k', v'⟩ := kv
    by_cases hj : k' = j
    · rw [assocErase, if_pos hj] at h
      exact List.mem_cons_of_mem _ h
    · rw [assocErase, if_neg hj] at h
      rcases List.mem_cons.1 h with h1 | h1
      · exact List.mem_cons.2 (Or.inl h1)
      · exact List.mem_cons_of_mem _ (ih h1)

lemma assocFind_assocErase_none {β : Type} {es : List (GoStr × β)} {j k : GoStr}
    (h : assocFind es k = none) : assocFind (assocErase es j) k = none :=
  assocFind_eq_none_iff.2 (fun hm => assocFind_eq_none_iff.1 h (assocErase_keys_mem hm))

lemma sumSizes_perm {es es' : List (GoStr × CacheEntry)} (h : es.Perm es') :
    sumSizes es = sumSizes es' := by
  have hs := List.Perm.sum_eq (List.Perm.map (fun p => p.2.size) h)
  simpa [sumSizes] using hs

lemma sumSizes_erase {es : List (GoStr × CacheEntry)} {k : GoStr} {v : CacheEntry}
    (h : assocFind es k = some v) :
    sumSizes es = v.size + sumSizes (assocErase es k) := by
  have hp := sumSizes_perm (assocErase_perm h)
  rw [hp, sumSizes_cons]

lemma sumSizes_assocUpdate : ∀ {es : List (GoStr × CacheEntry)} {k : GoStr}
    {e v : CacheEntry}, assocFind es k = some e →
    sumSizes (assocUpdate es k v) = sumSizes es - e.size + v.size := by
  intro es
  induction es with
  | nil => intro k e v h; simp [assocFind] at h
  | cons kv t ih =>
    intro k e v h
    obtain ⟨k', v'⟩ := kv
    by_cases hk : k' = k
    · simp only [assocFind, if_pos hk] at h
      injection h with h
      subst h
      rw [assocUpdate, if_pos hk, sumSizes_cons, sumSizes_cons]
      have h1 : ((k', v') : GoStr × CacheEntry).2.size = v'.size := rfl
      have h2 : ((k, v) : GoStr × CacheEntry).2.size = v.size := rfl
      rw [h1, h2]
      omega
    · simp only [assocFind, if_neg hk] at h
      rw [assocUpdate, if_neg hk, sumSizes_cons, sumSizes_cons, ih h]
      have h1 : ((k', v') : GoStr × CacheEntry).2.size = v'.size := rfl
      rw [h1]
      omega

lemma removeFirstStr_perm : ∀ {l : List GoStr} {k : GoStr},
    k ∈ l → (k :: removeFirstStr k l).Perm l := by
  intro l
  induction l with
  | nil => intro k h; simp at h
  | cons x t ih =>
    intro k h
    by_cases hx : x = k
    · subst hx
      rw [removeFirstStr, if_pos rfl]
    · rw [removeFirstStr, if_neg hx]
      have hk : k ∈ t := by
        rcases List.mem_cons.1 h with h1 | h1
        · exact absurd h1.symm hx
        · exact h1
      exact (List.Perm.swap x k _).trans ((ih hk).cons x)

lemma evictLoop_invariant (P : Cache → Prop) (sz : Int)
    (hP : ∀ c, P c →
      (((c.entries.length : Int) ≥ c.maxEntries ∨ c.currentSize + sz > c.maxSize)
        ∧ c.entries.length > 0) → P (evictLRU c)) :
    ∀ fuel (c c' : Cache), P c → evictLoop fuel sz c = some c' →
      P c' ∧ ¬(((c'.entries.length : Int) ≥ c'.maxEntries
          ∨ c'.currentSize + sz > c'.maxSize) ∧ c'.entries.length > 0) := by
  intro fuel
  induction fuel with
  | zero => intro c c' _ h; simp [evictLoop] at h
  | succ n ih =>
    intro c c' hPc h
    rw [evictLoop] at h
    by_cases hcond : (((c.entries.length : Int) ≥ c.maxEntries
        ∨ c.currentSize + sz > c.maxSize) ∧ c.entries.length > 0)
    · rw [if_pos hcond] at h
      exact ih _ _ (hP c hPc hcond) h
    · rw [if_neg hcond] at h
      injection h with h
      subst h
      exact ⟨hPc, hcond⟩

lemma evictLRU_fresh {c : Cache} {k : GoStr}
    (hno : (c.entries.map Prod.fst).Nodup)
    (hperm : c.accessOrder.Perm (c.entries.map Prod.fst))
    (hsum : c.currentSize = sumSizes c.entries)
    (hfind : assocFind c.entries k = none)
    (hlen : c.entries.length > 0) :
    ((evictLRU c).entries.map Prod.fst).Nodup
    ∧ (evictLRU c).accessOrder.Perm ((evictLRU c).entries.map Prod.fst)
    ∧ (evictLRU c).currentSize = sumSizes (evictLRU c).entries
    ∧ assocFind (evictLRU c).entries k = none
    ∧ (evictLRU c).maxEntries = c.maxEntries
    ∧ (evictLRU c).maxSize = c.maxSize := by
  cases horder : c.accessOrder with
  | nil =>
    exfalso
    rw [horder] at hperm
    have hkeys : c.entries.map Prod.fst = [] := List.perm_nil.1 hperm.symm
    have : c.entries = [] := List.map_eq_nil_iff.1 hkeys
    rw [this] at hlen
    simp at hlen
  | cons j rest =>
    rw [horder] at hperm
    have hjmem : j ∈ c.entries.map Prod.fst :=
      hperm.subset (List.mem_cons_self j rest)
    obtain ⟨ej, hej⟩ := assocFind_isSome_of_mem hjmem
    have hev : evictLRU c = { c with
        accessOrder := rest,
        entries := assocErase c.entries j,
        currentSize := c.currentSize - ej.size } := by
      simp only [evictLRU, horder, hej]
    rw [hev]
    have hkeys : (c.entries.map Prod.fst).Perm
        (j :: (assocErase c.entries j).map Prod.fst) := by
      simpa using (assocErase_perm hej).map Prod.fst
    have hnod2 : (j :: (assocErase c.entries j).map Prod.fst).Nodup :=
      hkeys.nodup hno
    refine ⟨hnod2.of_cons, ?_, ?_, assocFind_assocErase_none hfind, rfl, rfl⟩
    · exact (hperm.trans hkeys).cons_inv
    · have hse := sumSizes_erase hej
      simp only
      omega

lemma evictLRU_stale {c : Cache} {k : GoStr} {old : CacheEntry}
    (hno : (c.entries.map Prod.fst).Nodup)
    (hperm : (k :: c.accessOrder).Perm (c.entries.map Prod.fst))
    (hfind : assocFind c.entries k = some old)
    (hsum : c.currentSize = sumSizes c.entries - old.size) :
    ((evictLRU c).entries.map Prod.fst).Nodup
    ∧ (k :: (evictLRU c).accessOrder).Perm ((evictLRU c).entries.map Prod.fst)
    ∧ assocFind (evictLRU c).entries k = some old
    ∧ (evictLRU c).currentSize = sumSizes (evictLRU c).entries - old.size
    ∧ (evictLRU c).maxEntries = c.maxEntries
    ∧ (evictLRU c).maxSize = c.maxSize := by
  cases horder : c.accessOrder with
  | nil =>
    have hev : evictLRU c = c := by
      simp only [evictLRU, horder]
    rw [hev]
    exact ⟨hno, hperm, hfind, hsum, rfl, rfl⟩
  | cons j rest =>
    rw [horder] at hperm
    have hnodkjr : (k :: j :: rest).Nodup := hperm.symm.nodup hno
    have hjk : j ≠ k := by
      have hkj : k ∉ j :: rest := (List.nodup_cons.1 hnodkjr).1
      intro he
      exact hkj (he ▸ List.mem_cons_self j rest)
    have hjmem : j ∈ c.entries.map Prod.fst :=
      hperm.subset (List.mem_cons_of_mem k (List.mem_cons_self j rest))
    obtain ⟨ej, hej⟩ := assocFind_isSome_of_mem hjmem
    have hev : evictLRU c = { c with
        accessOrder := rest,
        entries := assocErase c.entries j,
        currentSize := c.currentSize - ej.size } := by
      simp only [evictLRU, horder, hej]
    rw [hev]
    have hkeys : (c.entries.map Prod.fst).Perm
        (j :: (assocErase c.entries j).map Prod.fst) := by
      simpa using (assocErase_perm hej).map Prod.fst
    have hnod2 : (j :: (assocErase c.entries j).map Prod.fst).Nodup :=
      hkeys.nodup hno
    refine ⟨hnod2.of_cons, ?_, ?_, ?_, rfl, rfl⟩
    · exact ((List.Perm.swap j k rest).symm.trans (hperm.trans hkeys)).cons_inv
    · rw [show ({ c with
            accessOrder := rest,
            entries := assocErase c.entries j,
            currentSize := c.currentSize - ej.size } : Cache).entries
          = assocErase c.entries j from rfl]
      rw [assocFind_assocErase_ne hjk, hfind]
    · have hse := sumSizes_erase hej
      simp only
      omega

lemma cachePut_inv {c c' : Cache} {k : GoStr} {e0 : CacheEntry}
    (hno : (c.entries.map Prod.fst).Nodup)
    (hperm : c.accessOrder.Perm (c.entries.map Prod.fst))
    (hsum : c.currentSize = sumSizes c.entries)
    (hme1 : 1 ≤ c.maxEntries)
    (hput : cachePut c k e0 = some c') :
    (c'.entries.map Prod.fst).Nodup
    ∧ c'.accessOrder.Perm (c'.entries.map Prod.fst)
    ∧ c'.currentSize = sumSizes c'.entries
    ∧ (c'.entries.length : Int) ≤ c'.maxEntries
    ∧ c'.maxEntries = c.maxEntries ∧ c'.maxSize = c.maxSize
    ∧ (entrySizeOf e0 ≤ c.maxSize → c'.currentSize ≤ c'.maxSize) := by
  simp only [cachePut] at hput
  cases hf : assocFind c.entries k with
  | none =>
    rw [hf] at hput
    simp only at hput
    cases hloop : evictLoop (c.entries.length + 1) (entrySizeOf e0) c with
    | none => rw [hloop] at hput; exact absurd hput (by simp)
    | some c2 =>
      rw [hloop] at hput
      simp only at hput
      obtain ⟨⟨p1, p2, p3, p4, p5, p6⟩, hexit⟩ :=
        evictLoop_invariant
          (fun c0 => (c0.entries.map Prod.fst).Nodup
            ∧ c0.accessOrder.Perm (c0.entries.map Prod.fst)
            ∧ c0.currentSize = sumSizes c0.entries
            ∧ assocFind c0.entries k = none
            ∧ c0.maxEntries = c.maxEntries ∧ c0.maxSize = c.maxSize)
          (entrySizeOf e0)
          (fun c0 h0 hc => by
            obtain ⟨h1, h2, h3, h4, h5, h6⟩ := h0
            obtain ⟨g1, g2, g3, g4, g5, g6⟩ := evictLRU_fresh h1 h2 h3 h4 hc.2
            exact ⟨g1, g2, g3, g4, g5.trans h5, g6.trans h6⟩)
          _ _ _ ⟨hno, hperm, hsum, hf, rfl, rfl⟩ hloop
      rw [p5, p6] at hexit
      injection hput with hput
      subst hput
      simp only
      set E : CacheEntry := { e0 with size := entrySizeOf e0, lastAccessed := 0 } with hE
      have hknot : k ∉ c2.entries.map Prod.fst := assocFind_eq_none_iff.1 p4
      have hupd : assocUpdate c2.entries k E = c2.entries ++ [(k, E)] :=
        assocUpdate_eq_append hknot
      rw [hupd]
      have hp : ((c2.entries ++ [(k, E)]).map Prod.fst).Perm
          (k :: c2.entries.map Prod.fst) := by
        simp only [List.map_append, List.map_cons, List.map_nil]
        exact List.perm_append_singleton k (c2.entries.map Prod.fst)
      have hbound : ((c2.entries.length + 1 : Nat) : Int) ≤ c.maxEntries
          ∧ (entrySizeOf e0 ≤ c.maxSize →
              c2.currentSize + entrySizeOf e0 ≤ c.maxSize) := by
        by_cases hl : c2.entries.length = 0
        · have he2 : c2.entries = [] := List.length_eq_zero.1 hl
          constructor
          · rw [hl]
            push_cast
            omega
          · intro hsz
            have hcs0 : c2.currentSize = 0 := by
              rw [p3, he2]
              rfl
            omega
        · have hl0 : c2.entries.length > 0 := Nat.pos_of_ne_zero hl
          have hb : ¬((c2.entries.length : Int) ≥ c.maxEntries
              ∨ c2.currentSize + entrySizeOf e0 > c.maxSize) :=
            fun hOr => hexit ⟨hOr, hl0⟩
          push_neg at hb
          constructor
          · push_cast
            omega
          · exact fun _ => hb.2
      refine ⟨?_, ?_, ?_, ?_, p5, p6, ?_⟩
      · exact hp.symm.nodup (List.nodup_cons.2 ⟨hknot, p1⟩)
      · exact (p2.append_right [k]).trans
          ((List.perm_append_singleton k (c2.entries.map Prod.fst)).trans hp.symm)
      · rw [sumSizes_append, ← p3]
        have hEs : sumSizes [(k, E)] = entrySizeOf e0 := by
          rw [sumSizes_cons]
          show E.size + 0 = entrySizeOf e0
          simp [hE]
        rw [hEs]
      · rw [p5]
        have hlen : (c2.entries ++ [(k, E)]).length = c2.entries.length + 1 := by
          simp
        rw [hlen]
        exact hbound.1
      · intro hsz
        rw [p6]
        exact hbound.2 hsz
  | some old =>
    rw [hf] at hput
    simp only at hput
    cases hloop : evictLoop (c.entries.length + 1) (entrySizeOf e0)
        { c with
          currentSize := c.currentSize - old.size,
          accessOrder := removeFirstStr k c.accessOrder } with
    | none => rw [hloop] at hput; exact absurd hput (by simp)
    | some c2 =>
      rw [hloop] at hput
      simp only at hput
      have hkmemord : k ∈ c.accessOrder :=
        hperm.mem_iff.2 (assocFind_mem_keys hf)
      obtain ⟨⟨p1, p2, pf, p3, p5, p6⟩, hexit⟩ :=
        evictLoop_invariant
          (fun c0 => (c0.entries.map Prod.fst).Nodup
            ∧ (k :: c0.accessOrder).Perm (c0.entries.map Prod.fst)
            ∧ assocFind c0.entries k = some old
            ∧ c0.currentSize = sumSizes c0.entries - old.size
            ∧ c0.maxEntries = c.maxEntries ∧ c0.maxSize = c.maxSize)
          (entrySizeOf e0)
          (fun c0 h0 hc => by
            obtain ⟨h1, h2, h3, h4, h5, h6⟩ := h0
            obtain ⟨g1, g2, g3, g4, g5, g6⟩ := evictLRU_stale h1 h2 h3 h4
            exact ⟨g1, g2, g3, g4, g5.trans h5, g6.trans h6⟩)
          _ ({ c with
               currentSize := c.currentSize - old.size,
               accessOrder := removeFirstStr k c.accessOrder }) _
          ⟨hno, (removeFirstStr_perm hkmemord).trans hperm, hf, by
            show c.currentSize - old.size = sumSizes c.entries - old.size
            omega, rfl, rfl⟩ hloop
      rw [p5, p6] at hexit
      injection hput with hput
      subst hput
      simp only
      set E : CacheEntry := { e0 with size := entrySizeOf e0, lastAccessed := 0 } with hE
      have hkmem2 : k ∈ c2.entries.map Prod.fst := assocFind_mem_keys pf
      have hl0 : c2.entries.length > 0 := by
        cases hne : c2.entries with
        | nil => rw [hne] at hkmem2; simp at hkmem2
        | cons a t => simp [hne]
      have hb : ¬((c2.entries.length : Int) ≥ c.maxEntries
          ∨ c2.currentSize + entrySizeOf e0 > c.maxSize) :=
        fun hOr => hexit ⟨hOr, hl0⟩
      push_neg at hb
      have hkeq : (assocUpdate c2.entries k E).map Prod.fst
          = c2.entries.map Prod.fst := assocUpdate_keys_of_mem hkmem2
      refine ⟨?_, ?_, ?_, ?_, p5, p6, ?_⟩
      · rw [hkeq]
        exact p1
      · rw [hkeq]
        exact (List.perm_append_singleton k c2.accessOrder).trans p2
      · rw [sumSizes_assocUpdate pf]
        have hEs : E.size = entrySizeOf e0 := by rw [hE]
        rw [hEs]
        omega
      · rw [p5]
        have hlen : (assocUpdate c2.entries k E).length = c2.entries.length := by
          have hc := congrArg List.length hkeq
          simpa using hc
        rw [hlen]
        omega
      · intro hsz
        rw [p6]
        exact hb.2

lemma cacheGet_inv {c : Cache} {k : GoStr}
    (hno : (c.entries.map Prod.fst).Nodup)
    (hperm : c.accessOrder.Perm (c.entries.map Prod.fst))
    (hsum : c.currentSize = sumSizes c.entries) :
    ((cacheGet c k).1.entries.map Prod.fst).Nodup
    ∧ (cacheGet c k).1.accessOrder.Perm ((cacheGet c k).1.entries.map Prod.fst)
    ∧ (cacheGet c k).1.currentSize = sumSizes (cacheGet c k).1.entries
    ∧ (cacheGet c k).1.entries.length = c.entries.length
    ∧ (cacheGet c k).1.maxEntries = c.maxEntries
    ∧ (cacheGet c k).1.maxSize = c.maxSize
    ∧ (cacheGet c k).1.currentSize = c.currentSize := by
  cases hf : assocFind c.entries k with
  | none =>
    have hg : (cacheGet c k).1 = c := by
      simp only [cacheGet, hf]
    rw [hg]
    exact ⟨hno, hperm, hsum, rfl, rfl, rfl, rfl⟩
  | some e =>
    have hg : (cacheGet c k).1 = { c with
        entries := assocUpdate c.entries k { e with lastAccessed := 0 },
        accessOrder := removeFirstStr k c.accessOrder ++ [k] } := by
      simp only [cacheGet, hf]
    rw [hg]
    simp only
    have hkmem : k ∈ c.entries.map Prod.fst := assocFind_mem_keys hf
    have hkeq : (assocUpdate c.entries k { e with lastAccessed := 0 }).map Prod.fst
        = c.entries.map Prod.fst := assocUpdate_keys_of_mem hkmem
    have hkord : k ∈ c.accessOrder := hperm.mem_iff.2 hkmem
    refine ⟨?_, ?_, ?_, ?_, trivial, trivial, trivial⟩
    · rw [hkeq]
      exact hno
    · rw [hkeq]
      exact ((List.perm_append_singleton k (removeFirstStr k c.accessOrder)).trans
        (removeFirstStr_perm hkord)).trans hperm
    · rw [sumSizes_assocUpdate hf]
      have hes : ({ e with lastAccessed := 0 } : CacheEntry).size = e.size := rfl
      rw [hes]
      omega
    · have hc := congrArg List.length hkeq
      simpa using hc

lemma applyCacheOp_inv {c c' : Cache} {op : CacheOp}
    (h : CacheInvA c) (hstep : applyCacheOp c op = some c') :
    CacheInvA c'
    ∧ (c.currentSize ≤ c.maxSize → opSizeOK op = true →
        c'.currentSize ≤ c'.maxSize) := by
  obtain ⟨h1, h2, h3, h4, h5, h6⟩ := h
  cases op with
  | get k =>
    simp only [applyCacheOp] at hstep
    injection hstep with hstep
    subst hstep
    obtain ⟨g1, g2, g3, g4, g5, g6, g7⟩ := cacheGet_inv h1 h2 h3
    refine ⟨⟨g1, g2, g3, ?_, ?_, ?_⟩, ?_⟩
    · rw [g4, g5]
      exact h4
    · rw [g5]
      exact h5
    · rw [g6]
      exact h6
    · intro hb _
      rw [g7, g6]
      exact hb
  | put k e =>
    simp only [applyCacheOp] at hstep
    obtain ⟨g1, g2, g3, g4, g5, g6, g7⟩ := cachePut_inv h1 h2 h3 h5 hstep
    refine ⟨⟨g1, g2, g3, g4, ?_, ?_⟩, ?_⟩
    · rw [g5]
      exact h5
    · rw [g6]
      exact h6
    · intro _ hok
      apply g7
      rw [h6]
      simpa [opSizeOK] using hok
  | clear =>
    simp only [applyCacheOp] at hstep
    injection hstep with hstep
    subst hstep
    refine ⟨⟨by simp [cacheClear], by simp [cacheClear], rfl, ?_, h5, h6⟩, ?_⟩
    · show ((([] : List (GoStr × CacheEntry)).length : Int)) ≤ c.maxEntries
      simp
      omega
    · intro _ _
      show (0 : Int) ≤ c.maxSize
      omega

lemma runCacheOps_inv : ∀ (ops : List CacheOp) (c c' : Cache),
    CacheInvA c → runCacheOps c ops = some c' →
    CacheInvA c'
    ∧ (c.currentSize ≤ c.maxSize → ops.all opSizeOK = true →
        c'.currentSize ≤ c'.maxSize) := by
  intro ops
  induction ops with
  | nil =>
    intro c c' h hrun
    simp only [runCacheOps] at hrun
    injection hrun with hrun
    subst hrun
    exact ⟨h, fun h1 _ => h1⟩
  | cons op t ih =>
    intro c c' h hrun
    rw [runCacheOps] at hrun
    cases hstep : applyCacheOp c op with
    | none =>
      rw [hstep] at hrun
      exact absurd hrun (by simp)
    | some c1 =>
      rw [hstep] at hrun
      simp only at hrun
      obtain ⟨h1, hcs⟩ := applyCacheOp_inv h hstep
      obtain ⟨h2, h3⟩ := ih c1 c' h1 hrun
      refine ⟨h2, ?_⟩
      intro hb hall
      simp only [List.all_cons, Bool.and_eq_true] at hall
      exact h3 (hcs hb hall.1) hall.2

/-- C3.  Cache invariants, amended: for a cache created with
`max_entries ≥ 1` and any operation sequence on which every `put`
terminates (the source loop can diverge, see C5), the final state has
(a) `currentSize` equal to the sum of the stored entry sizes and
(b) at most `max_entries` entries; the byte bound (c)
`currentSize ≤ max_bytes` holds provided every `put` entry itself fits
under 100 MiB — the spec states (c) unconditionally, which an
oversized entry refutes. -/
theorem c3_cache_invariants_amended (me : Int) (ops : List CacheOp) (c : Cache)
    (hme : 1 ≤ me)
    (hrun : runCacheOps (newCache me) ops = some c) :
    (c.currentSize = sumSizes c.entries
      ∧ (c.entries.length : Int) ≤ c.maxEntries)
    ∧ (ops.all opSizeOK = true → c.currentSize ≤ c.maxSize) := by
  have h0 : CacheInvA (newCache me) := by
    refine ⟨by simp [newCache], by simp [newCache], rfl, ?_, hme, rfl⟩
    show ((([] : List (GoStr × CacheEntry)).length : Int)) ≤ me
    simp
    omega
  obtain ⟨hA, hsize⟩ := runCacheOps_inv ops _ _ h0 hrun
  exact ⟨⟨hA.2.2.1, hA.2.2.2.1⟩, fun hok => hsize (by norm_num [newCache]) hok⟩

/-- Putting an entry larger than the byte cap into an empty cache
completes and leaves `currentSize > maxSize`. -/
lemma put_oversized (e0 : CacheEntry) (hsz : entrySizeOf e0 > 104857600) :
    ∃ c, runCacheOps (newCache 1000) [CacheOp.put (gs ("K")) e0] = some c
      ∧ c.currentSize > c.maxSize := by
  have hstep : applyCacheOp (newCache 1000) (CacheOp.put (gs ("K")) e0)
      = some ⟨[(gs ("K"),
            { e0 with size := entrySizeOf e0, lastAccessed := 0 })],
          [gs ("K")], 1000, 104857600, 0 + entrySizeOf e0⟩ := by
    show cachePut (newCache 1000) (gs ("K")) e0 = _
    rw [cachePut]
    simp only [newCache, assocFind, List.length_nil]
    rw [evictLoop_exit _ ?f5]
    case f5 =>
      intro hc
      simpa using hc.2
    simp [assocUpdate]
  refine ⟨_, (runCacheOps_cons _ hstep).trans rfl, ?_⟩
  show (0 + entrySizeOf e0 : Int) > 104857600
  omega

/-- C3 counterexample: a single `put` of an entry larger than 100 MiB
(here a 104857601-byte body) completes and leaves
`currentSize > maxSize`, refuting the spec's unconditional byte
bound. -/
theorem c3_counterexample :
    ∃ c, runCacheOps (newCache 1000) [CacheOp.put (gs ("K")) c3big] = some c
      ∧ c.currentSize > c.maxSize :=
  put_oversized c3big (by
    rw [entrySizeOf, show c3big.headers = [] from rfl,
      show c3big.body = List.replicate 104857601 (0 : Nat) from rfl,
      List.length_replicate]
    norm_num)

/-- C3 witness: the amended theorem applied to one small `put`. -/
theorem c3_witness :
    ((1 : Int) ≤ 2
      ∧ runCacheOps (newCache 2)
          [CacheOp.put (gs ("a")) ⟨[], 200, [98], 0, 0⟩] = some c3WitC)
    ∧ ((c3WitC.currentSize = sumSizes c3WitC.entries
        ∧ (c3WitC.entries.length : Int) ≤ c3WitC.maxEntries)
      ∧ ([CacheOp.put (gs ("a")) ⟨[], 200, [98], 0, 0⟩].all opSizeOK = true →
          c3WitC.currentSize ≤ c3WitC.maxSize)) :=
  ⟨⟨by norm_num, by decide⟩,
    c3_cache_invariants_amended 2 [CacheOp.put (gs ("a")) ⟨[], 200, [98], 0, 0⟩]
      c3WitC (by norm_num) (by decide)⟩
